import Mathlib

/-!
Shallow embedding of the media-organizer pipeline (Go sources:
`core_types.go`, `core_scanner.go`, `core_dedup.go`, `core_organizer.go`,
and the CLI entry point) together with proofs settling the frozen claims.

Modelling conventions:
* Go `string` is Lean `String`; Go `strings.Contains` is modelled by an
  explicit substring search over the character list (byte vs. char is
  irrelevant for the ASCII data handled here).
* Go `int`/`int64` are modelled as `Int` (counts that are provably
  non-negative use `Nat`).
* `time.Time` values are modelled as integer timestamps; the two stdlib
  renderings used by the organizer (`Format "2006-01"` and `Year()`) are
  modelled by concrete functions on the timestamp.  None of the verified
  claims depends on the exact rendering.
* The SQLite-backed cache is modelled as a list of rows with `path` as the
  primary key; a transaction is modelled as a single atomic state change.
* Go map iteration order is unspecified; grouping maps are modelled as
  association lists in first-insertion order.  All properties proved below
  are insensitive to that order.
-/

/-- MediaType mirrors the Go `MediaType` enumeration from `core_types.go`. -/
inductive MediaType where
  | photo
  | video
  | music
  | unknown
deriving DecidableEq, Repr

/-- MediaFile mirrors the Go `MediaFile` struct (plus the `IsNew` freshness
flag set by `ProcessMetadata`). -/
structure MediaFile where
  Path : String
  Size : Int
  Hash : String
  MType : MediaType
  DateTaken : Option Int
  CameraMake : String
  CameraModel : String
  Artist : String
  Album : String
  Title : String
  Width : Int
  Height : Int
  IsNew : Bool
deriving DecidableEq, Repr

/-- Album mirrors the Go `Album` struct from `core_types.go`. -/
structure Album where
  Name : String
  Destination : String
  Files : List MediaFile
  SourceDirs : List String
  Date : Option Int
  MType : MediaType
deriving DecidableEq, Repr

/-- DuplicateGroup mirrors the Go `DuplicateGroup` struct. -/
structure DuplicateGroup where
  Hash : String
  Files : List MediaFile
  Best : Option MediaFile
deriving DecidableEq, Repr

/-- Config mirrors the Go `Config` struct from `core_types.go`. -/
structure Config where
  ScanPath : String
  LibraryBase : String
  DuplicatesTrash : String
  OllamaModel : String
  DryRun : Bool
  FileLimit : Int
  Workers : Int
  PruneCache : Bool
deriving DecidableEq, Repr

/-- listStartsWith s pat is true when pat is an initial segment of s
(character-level model of a Go byte-prefix test). -/
def listStartsWith : List Char → List Char → Bool
  | _, [] => true
  | [], _ :: _ => false
  | a :: as, b :: bs => a == b && listStartsWith as bs

/-- listContainsSub pat s is true when pat occurs contiguously in s;
this models Go `strings.Contains s pat`. -/
def listContainsSub (pat : List Char) : List Char → Bool
  | [] => listStartsWith [] pat
  | c :: rest => listStartsWith (c :: rest) pat || listContainsSub pat rest

/-- strContains models Go `strings.Contains(s, pat)`. -/
def strContains (s pat : String) : Bool :=
  listContainsSub pat.data s.data

/-- extFold scans the characters of a path from the left, keeping the suffix
that starts at the last dot of the last slash-separated element; this models
Go `filepath.Ext`. -/
def extFold (cs : List Char) : List Char :=
  cs.foldl
    (fun acc c =>
      if c == '/' then []
      else if c == '.' then ['.']
      else if acc.isEmpty then [] else acc ++ [c])
    []

/-- goExt models Go `filepath.Ext`. -/
def goExt (p : String) : String :=
  ⟨extFold p.data⟩

/-- strToLower models Go `strings.ToLower` (ASCII-faithful). -/
def strToLower (s : String) : String :=
  ⟨s.data.map Char.toLower⟩

/-- splitSlash splits a character list at every '/' (the components Go's
path functions operate on). -/
def splitSlash : List Char → List (List Char)
  | [] => [[]]
  | c :: rest =>
    let r := splitSlash rest
    if c == '/' then [] :: r
    else (c :: r.headD []) :: r.tail

/-- joinSlash is the inverse of `splitSlash` on its image: re-joins
components with '/'. -/
def joinSlash : List (List Char) → List Char
  | [] => []
  | [x] => x
  | x :: rest => x ++ '/' :: joinSlash rest

/-- goBase models Go `filepath.Base` for cleaned paths without trailing
slashes (the only inputs the pipeline produces). -/
def goBase (p : String) : String :=
  ⟨(splitSlash p.data).getLastD p.data⟩

/-- goDir models Go `filepath.Dir` for cleaned paths without trailing
slashes. -/
def goDir (p : String) : String :=
  let cs := splitSlash p.data
  if cs.length ≤ 1 then "."
  else
    let d := joinSlash cs.dropLast
    if d.isEmpty then "/" else ⟨d⟩

/-- goJoin2 models Go `filepath.Join` on two nonempty cleaned components. -/
def goJoin2 (a b : String) : String :=
  if a = "" then b else a ++ "/" ++ b

/-- goJoin4 models Go `filepath.Join` on four nonempty cleaned components. -/
def goJoin4 (a b c d : String) : String :=
  goJoin2 (goJoin2 (goJoin2 a b) c) d

/-- photoExtensions mirrors the photo extension set of `core_scanner.go`. -/
def photoExtensions : List String :=
  [".jpg", ".jpeg", ".jpe", ".png", ".tiff", ".tif", ".heic", ".heif",
    ".raw", ".cr2", ".nef", ".arw"]

/-- videoExtensions mirrors the video extension set of `core_scanner.go`. -/
def videoExtensions : List String :=
  [".mp4", ".mov", ".avi", ".wmv", ".mkv", ".m4v", ".mpg", ".mpeg",
    ".flv", ".3gp", ".mts", ".m2ts"]

/-- musicExtensions mirrors the music extension set of `core_scanner.go`. -/
def musicExtensions : List String :=
  [".mp3", ".m4a", ".flac", ".wav", ".aac", ".ogg", ".wma", ".alac"]

/-- excludePatterns mirrors the excluded-substring list of `core_scanner.go`. -/
def excludePatterns : List String :=
  ["/.Trash/", "/.Thumbnails/", "/Thumbnails/",
    "/.deleted_media/", "/.duplicates-trash/",
    "/System/", "/Library/", "/Applications/",
    "/.config/", "/retropie/", "/OFFICE/",
    "/Template/", "/Software/", "/Windows/",
    "/Program Files/"]

/-- detectMediaType mirrors `detectMediaType` from `core_scanner.go`. -/
def detectMediaType (p : String) : MediaType :=
  let ext := strToLower (goExt p)
  if photoExtensions.contains ext then .photo
  else if videoExtensions.contains ext then .video
  else if musicExtensions.contains ext then .music
  else .unknown

/-- shouldExclude mirrors `shouldExclude` from `core_scanner.go`. -/
def shouldExclude (p : String) : Bool :=
  excludePatterns.any (fun pat => strContains p pat)

/-- An abstract filesystem tree walked by the scanner.  Each entry carries the
full path Go's `filepath.Walk` would hand to the callback. -/
inductive FSEntry where
  | file (path : String) (size : Int)
  | dir (path : String) (children : List FSEntry)
deriving Repr

/-- mkScannedFile mirrors the `MediaFile` literal built in `ScanMediaFiles`
(unset Go fields keep their zero values). -/
def mkScannedFile (p : String) (sz : Int) (mt : MediaType) : MediaFile :=
  { Path := p, Size := sz, Hash := "", MType := mt, DateTaken := none,
    CameraMake := "", CameraModel := "", Artist := "", Album := "",
    Title := "", Width := 0, Height := 0, IsNew := false }

/-- State threaded through the walk: accepted files and the running count. -/
structure ScanSt where
  files : List MediaFile
  count : Nat
deriving Repr

mutual

/-- walkEntry mirrors the `filepath.Walk` callback of `ScanMediaFiles`.
The returned Bool signals Go's `filepath.SkipDir` issued from a file
callback, which makes the walk skip the remaining entries of the containing
directory. -/
def walkEntry (limit : Int) (st : ScanSt) : FSEntry → ScanSt × Bool
  | .file p sz =>
    let mt := detectMediaType p
    if mt = .unknown then (st, false)
    else if shouldExclude p then (st, false)
    else if 0 < limit ∧ limit ≤ (st.count : Int) then (st, true)
    else (⟨st.files ++ [mkScannedFile p sz mt], st.count + 1⟩, false)
  | .dir p cs =>
    if shouldExclude p then (st, false)
    else (walkChildren limit st cs, false)

/-- walkChildren visits a directory's entries in order, honouring the
skip-remaining-siblings signal. -/
def walkChildren (limit : Int) (st : ScanSt) : List FSEntry → ScanSt
  | [] => st
  | c :: rest =>
    match walkEntry limit st c with
    | (st', true) => st'
    | (st', false) => walkChildren limit st' rest

end

/-- ScanMediaFiles mirrors `ScanMediaFiles` from `core_scanner.go` over the
abstract tree (progress events are advisory and dropped from the model). -/
def ScanMediaFiles (root : FSEntry) (limit : Int) : List MediaFile :=
  ((walkEntry limit ⟨[], 0⟩ root).1).files

/-- score mirrors the per-file score computed by `chooseBestDuplicate` in
`core_dedup.go` (Go's `int(mf.Size / 1024)` on the non-negative sizes the
scanner produces agrees with Lean's `Int` division). -/
def score (mf : MediaFile) : Int :=
  let s0 : Int := mf.Size / 1024
  let s1 := if !strContains mf.Path "/Recovered/" then s0 + 1000000 else s0
  let s2 :=
    if ["/Photo/", "/Pictures/", "/Video/", "/Music/"].any
        (fun pat => strContains mf.Path pat)
    then s1 + 500000 else s1
  let s3 := if strContains mf.Path "/UNNAMED_" then s2 - 500000 else s2
  let s4 := if mf.CameraMake ≠ "" then s3 + 10000 else s3
  if mf.Album ≠ "" then s4 + 10000 else s4

/-- dupLess mirrors the `sort.Slice` comparator of `chooseBestDuplicate`:
higher score first, ties broken by lexicographically smaller path. -/
def dupLess (a b : MediaFile) : Bool :=
  if score a ≠ score b then score b < score a else a.Path < b.Path

/-- dupLE is the total preorder the Go sort leaves the slice ordered by:
`dupLE a b` holds when the comparator does not require b before a.  Go's
`sort.Slice` guarantees exactly that the resulting slice is `dupLE`-sorted;
the model realises the sort with insertion sort, one deterministic
refinement of that guarantee. -/
def dupLE (a b : MediaFile) : Prop :=
  dupLess b a = false

instance : DecidableRel dupLE := fun a b =>
  inferInstanceAs (Decidable (dupLess b a = false))

/-- chooseBestDuplicate mirrors `chooseBestDuplicate` from `core_dedup.go`:
sort by the comparator and take the first element (`none` only on the empty
list, which the caller never passes). -/
def chooseBestDuplicate (files : List MediaFile) : Option MediaFile :=
  (files.insertionSort dupLE).head?

/-- insertGroup appends a record to the group of its key, creating the group
at the end on first sight; models insertion into a Go map of slices. -/
def insertGroup (k : String) (mf : MediaFile) :
    List (String × List MediaFile) → List (String × List MediaFile)
  | [] => [(k, [mf])]
  | (k', g) :: rest =>
    if k' = k then (k', g ++ [mf]) :: rest
    else (k', g) :: insertGroup k mf rest

/-- groupByKey groups a list of records by a key, in first-insertion order;
models the Go `map[string][]*MediaFile` accumulation loops. -/
def groupByKey (key : MediaFile → String) (files : List MediaFile) :
    List (String × List MediaFile) :=
  files.foldl (fun acc mf => insertGroup (key mf) mf acc) []

/-- FindDuplicates mirrors `FindDuplicates` from `core_dedup.go`. -/
def FindDuplicates (files : List MediaFile) : List DuplicateGroup :=
  let byHash := groupByKey (fun mf => mf.Hash)
    (files.filter (fun mf => !(mf.Hash == "")))
  (byHash.filter (fun hg => 1 < hg.2.length)).map
    (fun hg => { Hash := hg.1, Files := hg.2, Best := chooseBestDuplicate hg.2 })

/-- CacheRow mirrors one row of the `files` table created in `OpenCache`
(`path` is the primary key; `mod_time` and `date_taken` are integer epoch
seconds). -/
structure CacheRow where
  path : String
  size : Int
  modTime : Int
  hash : String
  dateTaken : Option Int
  cameraMake : String
  cameraModel : String
  artist : String
  album : String
  title : String
  width : Int
  height : Int
  processedAt : Int
deriving DecidableEq, Repr

/-- CachedFile mirrors the Go `CachedFile` struct returned by `Cache.Get`
(the unix timestamp round-trip `time.Unix(dateTakenUnix, 0)` is the identity
on the integer model). -/
structure CachedFile where
  Path : String
  Size : Int
  ModTime : Int
  Hash : String
  DateTaken : Option Int
  CameraMake : String
  CameraModel : String
  Artist : String
  Album : String
  Title : String
  Width : Int
  Height : Int
  ProcessedAt : Int
deriving DecidableEq, Repr

/-- rowOfMediaFile is the row `Cache.writeToDatabase` inserts for a record. -/
def rowOfMediaFile (mf : MediaFile) (modTime nowTs : Int) : CacheRow :=
  { path := mf.Path, size := mf.Size, modTime := modTime, hash := mf.Hash,
    dateTaken := mf.DateTaken, cameraMake := mf.CameraMake,
    cameraModel := mf.CameraModel, artist := mf.Artist, album := mf.Album,
    title := mf.Title, width := mf.Width, height := mf.Height,
    processedAt := nowTs }

/-- writeToDatabase mirrors `Cache.writeToDatabase`: an
`INSERT OR REPLACE` keyed by path (`nowTs` models `time.Now().Unix()`). -/
def writeToDatabase (db : List CacheRow) (mf : MediaFile)
    (modTime nowTs : Int) : List CacheRow :=
  db.filter (fun r => !(r.path == mf.Path)) ++ [rowOfMediaFile mf modTime nowTs]

/-- rowMatches is the WHERE clause of `Cache.Get`: path, size and mod_time
must all match exactly. -/
def rowMatches (p : String) (sz mt : Int) (r : CacheRow) : Bool :=
  r.path == p && r.size == sz && r.modTime == mt

/-- cachedOfRow converts a matching row to the `CachedFile` that `Cache.Get`
returns. -/
def cachedOfRow (r : CacheRow) : CachedFile :=
  { Path := r.path, Size := r.size, ModTime := r.modTime, Hash := r.hash,
    DateTaken := r.dateTaken, CameraMake := r.cameraMake,
    CameraModel := r.cameraModel, Artist := r.artist, Album := r.album,
    Title := r.title, Width := r.width, Height := r.height,
    ProcessedAt := r.processedAt }

/-- cacheGet mirrors `Cache.Get`: a lookup that only hits when path, size
and mod_time all match; any error is a miss. -/
def cacheGet (db : List CacheRow) (p : String) (sz mt : Int) :
    Option CachedFile :=
  (db.find? (rowMatches p sz mt)).map cachedOfRow

/-- toDeleteListOf mirrors the first loop of `Cache.PruneDeleted`: the paths
of all cached rows absent from validPaths (a Go `map[string]bool` lookup
defaults to false, hence the Bool-valued valid function). -/
def toDeleteListOf (valid : String → Bool) : List CacheRow → List String
  | [] => []
  | r :: rest =>
    if valid r.path then toDeleteListOf valid rest
    else r.path :: toDeleteListOf valid rest

/-- deletePaths applies the prepared `DELETE FROM files WHERE path = ?`
statement once per collected path. -/
def deletePaths (db : List CacheRow) (ps : List String) : List CacheRow :=
  ps.foldl (fun d p => d.filter (fun r => !(r.path == p))) db

/-- pruneDeleted mirrors `Cache.PruneDeleted`: collect the stale paths, then
delete them inside one transaction (modelled as one atomic state change) and
return the new store plus the number of deleted rows. -/
def pruneDeleted (db : List CacheRow) (valid : String → Bool) :
    List CacheRow × Nat :=
  let toDelete := toDeleteListOf valid db
  if toDelete.isEmpty then (db, 0)
  else (deletePaths db toDelete, toDelete.length)

/-- Which goroutine executes a durable write against the SQLite store. -/
inductive DBExecutor where
  | writerGoroutine
  | callerGoroutine
deriving DecidableEq, Repr

/-- The kinds of durable writes the cache layer issues against the `files`
table. -/
inductive DBWriteKind where
  | upsertRow (path : String)
  | deleteRow (path : String)
  | deleteTx (paths : List String)
deriving DecidableEq, Repr

/-- A durable write paired with the goroutine that executes it. -/
structure DBWrite where
  kind : DBWriteKind
  execBy : DBExecutor
deriving DecidableEq, Repr

/-- The cache API calls of the pipeline that can touch the `files` table
(`queueFull` records whether `Put`'s non-blocking send is dropped). -/
inductive CacheCall where
  | put (mf : MediaFile) (modTime : Int) (queueFull : Bool)
  | get (path : String) (size modTime : Int)
  | getStats
  | updatePath (oldPath : String) (mf : MediaFile) (modTime : Int)
      (queueFull : Bool)
  | pruneDeletedCall (cachedPaths : List String) (valid : String → Bool)

/-- storeWritesOf is the static write-effect summary of each cache API call,
read off `core_organizer.go`: `Put` only enqueues, and the queued upsert is
later executed by `writerLoop` (the single writer goroutine); `UpdatePath`
executes `DELETE FROM files WHERE path = ?` directly on the calling
goroutine before enqueueing the new-path upsert; `PruneDeleted` opens and
commits its own delete transaction on the calling goroutine; `Get` and
`GetStats` only read. -/
def storeWritesOf : CacheCall → List DBWrite
  | .put mf _ queueFull =>
    if queueFull then []
    else [⟨.upsertRow mf.Path, .writerGoroutine⟩]
  | .get _ _ _ => []
  | .getStats => []
  | .updatePath oldPath mf _ queueFull =>
    ⟨.deleteRow oldPath, .callerGoroutine⟩ ::
      (if queueFull then [] else [⟨.upsertRow mf.Path, .writerGoroutine⟩])
  | .pruneDeletedCall cachedPaths valid =>
    let toDelete := cachedPaths.filter (fun p => !valid p)
    if toDelete.isEmpty then []
    else [⟨.deleteTx toDelete, .callerGoroutine⟩]

/-- pruneGuard mirrors the prune condition of `runCLI` (and the identical
condition in the TUI's scan-complete handler): prune runs when the cache is
open and either no file limit is set or the prune-cache flag is given. -/
def pruneGuard (cacheOpen : Bool) (fileLimit : Int) (pruneCache : Bool) :
    Bool :=
  cacheOpen && (fileLimit == 0 || pruneCache)

/-- timeYearString stands in for Go's `medianDate.Year()` rendering on the
integer timestamp model (months since year 0).  No verified claim depends on
its exact form. -/
def timeYearString (t : Int) : String :=
  toString (t / 12)

/-- timeYearMonthString stands in for Go's `median.Format("2006-01")` on the
integer timestamp model.  No verified claim depends on its exact form. -/
def timeYearMonthString (t : Int) : String :=
  let m := t % 12 + 1
  toString (t / 12) ++ "-" ++ (if m < 10 then "0" else "") ++ toString m

/-- The organizer's external collaborators (spec section 6): the Ollama
availability probe, the album-suggestion cache lookup (`none` models both a
nil cache and a miss), and `SuggestAlbumName` (`none` models an error). -/
structure NamingEnv where
  ollamaAvailable : Bool
  cacheGetSuggestion : String → List String → Option String
  suggest : String → List String → Option String

/-- samplePathsOf mirrors the sample-path loop of `OrganizeIntoAlbums`
(first at most 5 paths of the directory group). -/
def samplePathsOf (g : List MediaFile) : List String :=
  (g.take 5).map (fun mf => mf.Path)

/-- stripMarker models `strings.ReplaceAll(dirName, "_____", "")`:
left-to-right removal of non-overlapping occurrences of the filler token. -/
def stripMarker : List Char → List Char
  | '_' :: '_' :: '_' :: '_' :: '_' :: rest => stripMarker rest
  | c :: rest => c :: stripMarker rest
  | [] => []

/-- isSpaceChar covers the whitespace the pipeline's ASCII data can carry;
models the character class of Go `strings.TrimSpace`. -/
def isSpaceChar (c : Char) : Bool :=
  c == ' ' || c == '\t' || c == '\n' || c == '\r'

/-- trimSpaces models Go `strings.TrimSpace` (ASCII-faithful). -/
def trimSpaces (cs : List Char) : List Char :=
  ((cs.dropWhile isSpaceChar).reverse.dropWhile isSpaceChar).reverse

/-- fallbackAlbumName mirrors `fallbackAlbumName` from `core_organizer.go`. -/
def fallbackAlbumName (sourceDir yearMonth : String) : String :=
  let dirName : String := ⟨trimSpaces (stripMarker (goBase sourceDir).data)⟩
  if dirName = "" ∨ dirName = "." then yearMonth ++ " Photos"
  else yearMonth ++ " " ++ dirName

/-- datesOf collects the non-nil DateTaken values of a directory group. -/
def datesOf (g : List MediaFile) : List Int :=
  g.filterMap (fun mf => mf.DateTaken)

/-- medianDateOf mirrors the median-date computation of
`OrganizeIntoAlbums`: sort the collected dates and take the element at index
`len/2` (upper middle for even lengths). -/
def medianDateOf (g : List MediaFile) : Option Int :=
  let dates := datesOf g
  if 0 < dates.length then
    some ((dates.insertionSort (· ≤ ·)).getD (dates.length / 2) 0)
  else none

/-- yearMonthOf mirrors the yearMonth label: the formatted median date, or
"Unknown Date" when no record has a date. -/
def yearMonthOf (g : List MediaFile) : String :=
  match medianDateOf g with
  | some t => timeYearMonthString t
  | none => "Unknown Date"

/-- yearOf mirrors the year component of the destination directory. -/
def yearOf (g : List MediaFile) : String :=
  match medianDateOf g with
  | some t => timeYearString t
  | none => "Unknown"

/-- albumNameOf mirrors the album-name determination of
`OrganizeIntoAlbums`: when Ollama is available, use the cached suggestion if
the sample set matches, otherwise consult the service and fall back on error
or empty reply; when unavailable, use the fallback name. -/
def albumNameOf (env : NamingEnv) (sourceDir : String) (g : List MediaFile)
    (yearMonth : String) : String :=
  if env.ollamaAvailable then
    let samples := samplePathsOf g
    match env.cacheGetSuggestion sourceDir samples with
    | some s => s
    | none =>
      match env.suggest sourceDir samples with
      | some s => if s ≠ "" then s else fallbackAlbumName sourceDir yearMonth
      | none => fallbackAlbumName sourceDir yearMonth
  else fallbackAlbumName sourceDir yearMonth

/-- albumFor builds the `Album` literal `OrganizeIntoAlbums` creates for a
qualifying directory group (`f0` is the group's first record, whose type
selects the Photos/Videos bucket). -/
def albumFor (env : NamingEnv) (cfg : Config) (sourceDir : String)
    (g : List MediaFile) (f0 : MediaFile) : Album :=
  let name := albumNameOf env sourceDir g (yearMonthOf g)
  let year := yearOf g
  let dest :=
    if f0.MType = .photo then goJoin4 cfg.LibraryBase "Photos" year name
    else goJoin4 cfg.LibraryBase "Videos" year name
  { Name := name, Destination := dest, Files := g,
    SourceDirs := [sourceDir], Date := medianDateOf g, MType := f0.MType }

/-- mergeAlbumIntoFirst models the `albumsByName` lookup: when an album with
the given name exists, append the new group's files and source directory to
it in place; `none` when no album has the name. -/
def mergeAlbumIntoFirst (name sourceDir : String) (g : List MediaFile) :
    List Album → Option (List Album)
  | [] => none
  | a :: rest =>
    let merged : Album :=
      { a with
        Files := a.Files ++ g
        SourceDirs := a.SourceDirs ++ [sourceDir] }
    if a.Name = name then some (merged :: rest)
    else (mergeAlbumIntoFirst name sourceDir g rest).map (fun l => a :: l)

/-- processDir mirrors one iteration of the per-directory loop of
`OrganizeIntoAlbums`: skip groups of fewer than 3 files, otherwise build the
album and merge it into an existing album of the same name or append it. -/
def processDir (env : NamingEnv) (cfg : Config) (st : List Album)
    (sourceDir : String) (g : List MediaFile) : List Album :=
  if g.length < 3 then st
  else
    match g with
    | [] => st
    | f0 :: _ =>
      let alb := albumFor env cfg sourceDir g f0
      match mergeAlbumIntoFirst alb.Name sourceDir g st with
      | some st' => st'
      | none => st ++ [alb]

/-- splitFirstAux finds the first occurrence of sep and returns the parts
before and after it; models the index search of Go `strings.SplitN(s, sep, 2)`. -/
def splitFirstAux (sep : List Char) : List Char →
    Option (List Char × List Char)
  | [] => none
  | c :: rest =>
    if listStartsWith (c :: rest) sep then
      some ([], (c :: rest).drop sep.length)
    else
      (splitFirstAux sep rest).map (fun pr => (c :: pr.1, pr.2))

/-- splitN2 models Go `strings.SplitN(s, sep, 2)` for nonempty sep, returning
the part before and after the first occurrence (the organizer only calls it
on keys that contain the separator). -/
def splitN2 (s sep : String) : String × String :=
  match splitFirstAux sep.data s.data with
  | some pr => (⟨pr.1⟩, ⟨pr.2⟩)
  | none => (s, "")

/-- musicKeyArtist mirrors the artist fallback of `organizeMusicFiles`. -/
def musicKeyArtist (mf : MediaFile) : String :=
  if mf.Artist = "" then "Unknown Artist" else mf.Artist

/-- musicKeyAlbum mirrors the album fallback of `organizeMusicFiles`. -/
def musicKeyAlbum (mf : MediaFile) : String :=
  if mf.Album = "" then "Unknown Album" else mf.Album

/-- organizeMusicFiles mirrors `organizeMusicFiles` from
`core_organizer.go`: group music records by the "Artist - Album" key, then
recover the pair by splitting at the first " - ". -/
def organizeMusicFiles (files : List MediaFile) (cfg : Config) :
    List Album :=
  let byAlbum := groupByKey
    (fun mf => musicKeyArtist mf ++ " - " ++ musicKeyAlbum mf)
    (files.filter (fun mf => mf.MType == .music))
  byAlbum.map (fun ng =>
    let parts := splitN2 ng.1 " - "
    { Name := ng.1,
      Destination := goJoin4 cfg.LibraryBase "Music" parts.1 parts.2,
      Files := ng.2, SourceDirs := ["various"], Date := none,
      MType := .music })

/-- newFilesOf mirrors the inner loop of `filterAlbumsWithNewFiles`: keep a
file when it is new or not already located at the album destination. -/
def newFilesOf (dest : String) (fs : List MediaFile) : List MediaFile :=
  fs.filter (fun f => f.IsNew || !(f.Path == goJoin2 dest (goBase f.Path)))

/-- filterAlbumsWithNewFiles mirrors `filterAlbumsWithNewFiles`: drop albums
whose files all already sit at their destination, and shrink kept albums to
the files that still need action. -/
def filterAlbumsWithNewFiles : List Album → List Album
  | [] => []
  | a :: rest =>
    let nf := newFilesOf a.Destination a.Files
    if nf.isEmpty then filterAlbumsWithNewFiles rest
    else { a with Files := nf } :: filterAlbumsWithNewFiles rest

/-- OrganizeIntoAlbums mirrors `OrganizeIntoAlbums` from
`core_organizer.go` (progress messages dropped; the external naming calls
are provided by `env`; the album-suggestion cache write is a side effect
with no influence on the returned plan). -/
def OrganizeIntoAlbums (env : NamingEnv) (cfg : Config)
    (files : List MediaFile) : List Album :=
  let byDirectory := groupByKey (fun mf => goDir mf.Path)
    (files.filter (fun mf => !(mf.MType == .music)))
  let albums := byDirectory.foldl
    (fun st kg => processDir env cfg st kg.1 kg.2) []
  filterAlbumsWithNewFiles (albums ++ organizeMusicFiles files cfg)

/-- find? skips a prefix on which the predicate is everywhere false. -/
theorem find?_append_of_none {α : Type} {p : α → Bool} :
    ∀ {l1 : List α} (l2 : List α), (∀ x ∈ l1, p x = false) →
      (l1 ++ l2).find? p = l2.find? p
  | [], _, _ => rfl
  | a :: l1, l2, h => by
    have ha := h a (List.mem_cons_self a l1)
    simp only [List.cons_append, List.find?, ha]
    exact find?_append_of_none l2 (fun x hx => h x (List.mem_cons_of_mem a hx))

/-- C4 counterexample: with a positive file limit and the prune-cache flag
set, the CLI's prune condition is still true, so `PruneDeleted` is invoked
during a capped run, contradicting the claim that a positive cap always
suppresses it. -/
theorem C4_counterexample :
    pruneGuard true 5 true = true ∧ (0 : Int) < 5 := by
  exact ⟨by decide, by decide⟩

/-- C4 (amended): during a capped run PruneDeleted is skipped unless the
prune-cache flag explicitly requests it; in general the prune pass runs
exactly when the cache is open and either no limit is set or the flag is
given. -/
theorem C4_capped_prune_guard (cacheOpen : Bool) (fileLimit : Int)
    (pruneCache : Bool) :
    (0 < fileLimit → pruneCache = false →
      pruneGuard cacheOpen fileLimit pruneCache = false)
    ∧ (pruneGuard cacheOpen fileLimit pruneCache = true ↔
        cacheOpen = true ∧ (fileLimit = 0 ∨ pruneCache = true)) := by
  constructor
  · intro hl hp
    have : (fileLimit == 0) = false := by
      rw [beq_eq_false_iff_ne]
      omega
    simp [pruneGuard, this, hp]
  · simp only [pruneGuard, Bool.and_eq_true, Bool.or_eq_true, beq_iff_eq]

/-- Witness for C4_capped_prune_guard at a concrete capped configuration. -/
theorem C4_capped_prune_guard_witness :
    pruneGuard true 7 false = false :=
  (C4_capped_prune_guard true 7 false).1 (by decide) rfl

/-- C1 counterexample: `UpdatePath` executes its DELETE of the old path
directly on the calling goroutine, not via the serialized writer, refuting
the claim that every durable write is performed by the writer goroutine. -/
theorem C1_counterexample :
    (⟨.deleteRow "/old", .callerGoroutine⟩ : DBWrite) ∈
      storeWritesOf
        (.updatePath "/old" (mkScannedFile "/new/a.jpg" 1 .photo) 0 false)
    ∧ DBExecutor.callerGoroutine ≠ DBExecutor.writerGoroutine := by
  constructor
  · simp [storeWritesOf]
  · decide

/-- C1 (amended): the single-writer discipline covers exactly the row
upserts: every upsert issued by the cache API (Put's queued write, including
the one UpdatePath enqueues) is executed by the writer goroutine, while
every write executed directly on a calling goroutine is a delete
(UpdatePath's old-path DELETE and PruneDeleted's delete transaction). -/
theorem C1_single_writer_upserts (call : CacheCall) (w : DBWrite)
    (hw : w ∈ storeWritesOf call) :
    (∃ p, w.kind = .upsertRow p) ↔ w.execBy = .writerGoroutine := by
  cases call with
  | put mf mt queueFull =>
    cases queueFull with
    | false =>
      have hw' : w = ⟨.upsertRow mf.Path, .writerGoroutine⟩ := by
        simpa [storeWritesOf] using hw
      subst hw'
      exact iff_of_true ⟨mf.Path, rfl⟩ rfl
    | true => simp [storeWritesOf] at hw
  | get p sz mt => simp [storeWritesOf] at hw
  | getStats => simp [storeWritesOf] at hw
  | updatePath oldPath mf mt queueFull =>
    cases queueFull with
    | false =>
      have hw' : w = ⟨.deleteRow oldPath, .callerGoroutine⟩ ∨
          w = ⟨.upsertRow mf.Path, .writerGoroutine⟩ := by
        simpa [storeWritesOf] using hw
      rcases hw' with h | h <;> subst h
      · exact iff_of_false (by rintro ⟨p, hp⟩; cases hp) (by intro hp; cases hp)
      · exact iff_of_true ⟨mf.Path, rfl⟩ rfl
    | true =>
      have hw' : w = ⟨.deleteRow oldPath, .callerGoroutine⟩ := by
        simpa [storeWritesOf] using hw
      subst hw'
      exact iff_of_false (by rintro ⟨p, hp⟩; cases hp) (by intro hp; cases hp)
  | pruneDeletedCall cachedPaths valid =>
    by_cases h : (cachedPaths.filter (fun p => !valid p)).isEmpty
    · simp [storeWritesOf, h] at hw
    · have hw' : w = ⟨.deleteTx (cachedPaths.filter (fun p => !valid p)),
          .callerGoroutine⟩ := by
        simpa [storeWritesOf, h] using hw
      subst hw'
      exact iff_of_false (by rintro ⟨p, hp⟩; cases hp) (by intro hp; cases hp)

/-- Witness for C1_single_writer_upserts: Put's queued upsert is executed by
the writer goroutine. -/
theorem C1_single_writer_upserts_witness :
    (∃ p, (⟨.upsertRow "/a.jpg", .writerGoroutine⟩ : DBWrite).kind =
        .upsertRow p) ↔
      (⟨.upsertRow "/a.jpg", .writerGoroutine⟩ : DBWrite).execBy =
        .writerGoroutine :=
  C1_single_writer_upserts (.put (mkScannedFile "/a.jpg" 1 .photo) 0 false)
    ⟨.upsertRow "/a.jpg", .writerGoroutine⟩ (by decide)

/-- C3: cache round-trip.  After the writer applies a Put for a record, a
Get with the same path, size and modTime returns every written field
unchanged; a Get with the same path but different size or modTime misses
even though a row for the path exists. -/
theorem C3_cache_roundtrip (db : List CacheRow) (mf : MediaFile)
    (mt nowTs sz2 mt2 : Int) (hdiff : sz2 ≠ mf.Size ∨ mt2 ≠ mt) :
    cacheGet (writeToDatabase db mf mt nowTs) mf.Path mf.Size mt =
      some { Path := mf.Path, Size := mf.Size, ModTime := mt,
             Hash := mf.Hash, DateTaken := mf.DateTaken,
             CameraMake := mf.CameraMake, CameraModel := mf.CameraModel,
             Artist := mf.Artist, Album := mf.Album, Title := mf.Title,
             Width := mf.Width, Height := mf.Height, ProcessedAt := nowTs }
    ∧ cacheGet (writeToDatabase db mf mt nowTs) mf.Path sz2 mt2 = none
    ∧ ((writeToDatabase db mf mt nowTs).find?
        (fun r => r.path == mf.Path)).isSome = true := by
  have hpref : ∀ r ∈ db.filter (fun r => !(r.path == mf.Path)),
      (r.path == mf.Path) = false := by
    intro r hr
    have h := (List.mem_filter.mp hr).2
    simpa using h
  refine ⟨?_, ?_, ?_⟩
  · have h1 : ∀ r ∈ db.filter (fun r => !(r.path == mf.Path)),
        rowMatches mf.Path mf.Size mt r = false := by
      intro r hr
      simp [rowMatches, hpref r hr]
    simp only [cacheGet, writeToDatabase, find?_append_of_none _ h1]
    simp [List.find?, rowMatches, rowOfMediaFile, cachedOfRow]
  · have h2 : ∀ r ∈ db.filter (fun r => !(r.path == mf.Path)),
        rowMatches mf.Path sz2 mt2 r = false := by
      intro r hr
      simp [rowMatches, hpref r hr]
    simp only [cacheGet, writeToDatabase, find?_append_of_none _ h2]
    have hmiss : rowMatches mf.Path sz2 mt2 (rowOfMediaFile mf mt nowTs) =
        false := by
      rcases hdiff with h | h
      · have : (mf.Size == sz2) = false := beq_eq_false_iff_ne.mpr (Ne.symm h)
        simp [rowMatches, rowOfMediaFile, this]
      · have : (mt == mt2) = false := beq_eq_false_iff_ne.mpr (Ne.symm h)
        simp [rowMatches, rowOfMediaFile, this]
    simp [List.find?, hmiss]
  · have h3 : ∀ r ∈ db.filter (fun r => !(r.path == mf.Path)),
        (fun r : CacheRow => r.path == mf.Path) r = false := by
      intro r hr
      exact hpref r hr
    simp only [writeToDatabase, find?_append_of_none _ h3]
    simp [List.find?, rowOfMediaFile]

/-- Witness for C3_cache_roundtrip at a concrete record and a size-mismatched
probe. -/
theorem C3_cache_roundtrip_witness :
    cacheGet
        (writeToDatabase [] (mkScannedFile "/w.jpg" 10 .photo) 5 9)
        "/w.jpg" 10 5 =
      some { Path := "/w.jpg", Size := 10, ModTime := 5, Hash := "",
             DateTaken := none, CameraMake := "", CameraModel := "",
             Artist := "", Album := "", Title := "", Width := 0,
             Height := 0, ProcessedAt := 9 }
    ∧ cacheGet
        (writeToDatabase [] (mkScannedFile "/w.jpg" 10 .photo) 5 9)
        "/w.jpg" 11 7 = none
    ∧ ((writeToDatabase [] (mkScannedFile "/w.jpg" 10 .photo) 5 9).find?
        (fun r => r.path == "/w.jpg")).isSome = true :=
  C3_cache_roundtrip [] (mkScannedFile "/w.jpg" 10 .photo) 5 9 11 7
    (Or.inl (by decide))

/-- toDeleteListOf collects exactly the paths of the rows that fail the
validity check, in order. -/
theorem toDeleteList_eq_filter (valid : String → Bool) :
    ∀ db : List CacheRow,
      toDeleteListOf valid db =
        (db.filter (fun r => !valid r.path)).map (fun r => r.path)
  | [] => rfl
  | r :: rest => by
    by_cases h : valid r.path <;>
      simp [toDeleteListOf, h, toDeleteList_eq_filter valid rest]

/-- Applying the per-path DELETE statement over a list of paths removes
exactly the rows whose path occurs in the list. -/
theorem deletePaths_eq_filter :
    ∀ (ps : List String) (db : List CacheRow),
      deletePaths db ps = db.filter (fun r => !ps.contains r.path)
  | [], db => by simp [deletePaths]
  | p :: ps, db => by
    have step : deletePaths db (p :: ps) =
        deletePaths (db.filter (fun r => !(r.path == p))) ps := rfl
    rw [step, deletePaths_eq_filter ps]
    rw [List.filter_filter]
    apply List.filter_congr
    intro r _
    by_cases hr : r.path = p
    · simp [hr]
    · simp [hr, beq_eq_false_iff_ne.mpr hr]

/-- C5: PruneDeleted removes exactly the rows whose path fails the
validPaths lookup (the kept store is the valid-path filter of the old one),
and returns the number of removed rows.  The enclosing transaction is
modelled as the single atomic state change from the old store to the new
one. -/
theorem C5_prune_exact (db : List CacheRow) (valid : String → Bool) :
    (pruneDeleted db valid).1 = db.filter (fun r => valid r.path)
    ∧ (pruneDeleted db valid).2 =
        (db.filter (fun r => !valid r.path)).length := by
  have hmem : ∀ r ∈ db, (toDeleteListOf valid db).contains r.path =
      !valid r.path := by
    intro r hr
    rw [toDeleteList_eq_filter]
    by_cases h : valid r.path
    · simp only [h, Bool.not_true]
      rw [List.contains_eq_any_beq, List.any_eq_false]
      intro p hp
      rcases List.mem_map.mp hp with ⟨r', hr', rfl⟩
      have hv : valid r'.path = false := by
        have h2 := (List.mem_filter.mp hr').2
        simpa using h2
      simp only [beq_iff_eq]
      intro hcon
      rw [hcon] at h
      rw [h] at hv
      cases hv
    · have h' : valid r.path = false := by
        simpa using h
      rw [h']
      have hmem2 : r ∈ db.filter (fun r => !valid r.path) := by
        rw [List.mem_filter]
        exact ⟨hr, by simp [h']⟩
      have hp : r.path ∈ (db.filter (fun r => !valid r.path)).map
          (fun r => r.path) := List.mem_map.mpr ⟨r, hmem2, rfl⟩
      simp only [Bool.not_false]
      rw [List.contains_eq_any_beq, List.any_eq_true]
      exact ⟨r.path, hp, by simp⟩
  have hemptyNil : (toDeleteListOf valid db).isEmpty = true →
      db.filter (fun r => !valid r.path) = [] := by
    intro hempty
    have h0 : toDeleteListOf valid db = [] := by
      cases hc : toDeleteListOf valid db with
      | nil => rfl
      | cons a l => rw [hc] at hempty; simp [List.isEmpty] at hempty
    rw [toDeleteList_eq_filter] at h0
    exact List.map_eq_nil_iff.mp h0
  constructor
  · unfold pruneDeleted
    by_cases hempty : (toDeleteListOf valid db).isEmpty
    · simp only [hempty, if_true]
      have hnil := hemptyNil hempty
      have hall : ∀ r ∈ db, valid r.path = true := by
        intro r hr
        by_contra h
        have h' : valid r.path = false := by
          cases hv : valid r.path
          · rfl
          · exact absurd hv h
        have hm : r ∈ db.filter (fun r => !valid r.path) := by
          rw [List.mem_filter]
          exact ⟨hr, by simp [h']⟩
        rw [hnil] at hm
        cases hm
      exact (List.filter_eq_self.mpr hall).symm
    · simp only [hempty, if_false]
      rw [deletePaths_eq_filter]
      apply List.filter_congr
      intro r hr
      rw [hmem r hr]
      simp
  · unfold pruneDeleted
    by_cases hempty : (toDeleteListOf valid db).isEmpty
    · simp only [hempty, if_true]
      rw [hemptyNil hempty]
      rfl
    · simp only [hempty, if_false]
      rw [toDeleteList_eq_filter]
      simp

/-- dupLE spelled out: the comparator prefers strictly higher additive
score, and on score ties the lexicographically smaller path. -/
theorem dupLE_iff (a b : MediaFile) :
    dupLE a b ↔ score b < score a ∨ (score a = score b ∧ a.Path ≤ b.Path) := by
  unfold dupLE dupLess
  by_cases h : score b = score a
  · rw [if_neg (by simp [h])]
    rw [decide_eq_false_iff_not, not_lt]
    constructor
    · intro hle
      exact Or.inr ⟨h.symm, hle⟩
    · rintro (hlt | ⟨_, hle⟩)
      · rw [h] at hlt
        exact absurd hlt (lt_irrefl _)
      · exact hle
  · rw [if_pos h]
    rw [decide_eq_false_iff_not, not_lt]
    constructor
    · intro hle
      exact Or.inl (lt_of_le_of_ne hle h)
    · rintro (hlt | ⟨heq, _⟩)
      · exact le_of_lt hlt
      · exact absurd heq.symm h

instance : IsTotal MediaFile dupLE where
  total a b := by
    rw [dupLE_iff, dupLE_iff]
    rcases lt_trichotomy (score a) (score b) with h | h | h
    · exact Or.inr (Or.inl h)
    · rcases le_total a.Path b.Path with hp | hp
      · exact Or.inl (Or.inr ⟨h, hp⟩)
      · exact Or.inr (Or.inr ⟨h.symm, hp⟩)
    · exact Or.inl (Or.inl h)

instance : IsTrans MediaFile dupLE where
  trans a b c hab hbc := by
    rw [dupLE_iff] at hab hbc ⊢
    rcases hab with h1 | ⟨h1, p1⟩ <;> rcases hbc with h2 | ⟨h2, p2⟩
    · exact Or.inl (by omega)
    · exact Or.inl (by omega)
    · exact Or.inl (by omega)
    · exact Or.inr ⟨by omega, p1.trans p2⟩

/-- The record chooseBestDuplicate returns is a member of the group that the
comparator places at or before every other member. -/
theorem chooseBest_isLeast (l : List MediaFile) (b : MediaFile)
    (hb : chooseBestDuplicate l = some b) :
    b ∈ l ∧ ∀ g ∈ l, dupLE b g := by
  unfold chooseBestDuplicate at hb
  cases hs : l.insertionSort dupLE with
  | nil => rw [hs] at hb; cases hb
  | cons x rest =>
    rw [hs] at hb
    have hx : x = b := by simpa using hb
    subst hx
    have hsorted : List.Sorted dupLE (x :: rest) := by
      rw [← hs]
      exact List.sorted_insertionSort dupLE l
    have hperm : (x :: rest).Perm l := by
      rw [← hs]
      exact List.perm_insertionSort dupLE l
    constructor
    · exact hperm.mem_iff.mp (List.mem_cons_self x rest)
    · intro g hg
      have hg' : g ∈ x :: rest := hperm.mem_iff.mpr hg
      rcases List.mem_cons.mp hg' with rfl | hgr
      · rw [dupLE_iff]
        exact Or.inr ⟨rfl, le_refl _⟩
      · exact (List.sorted_cons.mp hsorted).1 g hgr

/-- chooseBestDuplicate returns none exactly on the empty group (which
`FindDuplicates` never passes). -/
theorem chooseBest_none_iff (l : List MediaFile) :
    chooseBestDuplicate l = none ↔ l = [] := by
  unfold chooseBestDuplicate
  rw [List.head?_eq_none_iff]
  constructor
  · intro h
    have hp := List.perm_insertionSort dupLE l
    rw [h] at hp
    exact hp.symm.eq_nil
  · intro h
    subst h
    rfl

/-- underRecovered: the path carries the recovered-files marker. -/
def underRecovered (mf : MediaFile) : Bool :=
  strContains mf.Path "/Recovered/"

/-- underOrganized: the path carries an organized-media marker. -/
def underOrganized (mf : MediaFile) : Bool :=
  ["/Photo/", "/Pictures/", "/Video/", "/Music/"].any
    (fun pat => strContains mf.Path pat)

/-- underUnnamed: the path carries the unnamed marker. -/
def underUnnamed (mf : MediaFile) : Bool :=
  strContains mf.Path "/UNNAMED_"

/-- hasCamOrAlbum: camera or album metadata is present. -/
def hasCamOrAlbum (mf : MediaFile) : Bool :=
  !(mf.CameraMake == "") || !(mf.Album == "")

/-- specLexBetter is the ordering CLAIMED by the spec sentence (strict
lexicographic priority: size, then non-recovered path, then organized path,
then non-unnamed path, then metadata presence, ties by smaller path).  It is
written from the spec's words, not from the code, and is used to refute the
claim by comparison with the code's additive score. -/
def specLexBetter (a b : MediaFile) : Bool :=
  if a.Size ≠ b.Size then decide (b.Size < a.Size)
  else if (!underRecovered a) ≠ (!underRecovered b) then !underRecovered a
  else if underOrganized a ≠ underOrganized b then underOrganized a
  else if (!underUnnamed a) ≠ (!underUnnamed b) then !underUnnamed a
  else if hasCamOrAlbum a ≠ hasCamOrAlbum b then hasCamOrAlbum a
  else decide (a.Path ≤ b.Path)

/-- Concrete duplicate pair refuting C2: the 2 KB file under /Recovered/
outranks the 1 KB plain file under the claimed size-first lexicographic
priority, yet the code's additive score lets the non-recovered bonus
(+1000000) override the size advantage (2 vs 1). -/
def dupExA : MediaFile :=
  { mkScannedFile "/Recovered/a.jpg" 2048 .photo with Hash := "h" }

/-- The smaller, non-recovered member of the C2 counterexample pair. -/
def dupExB : MediaFile :=
  { mkScannedFile "/b.jpg" 1024 .photo with Hash := "h" }

/-- C2 counterexample: chooseBestDuplicate does not select the maximum under
the claimed strict lexicographic priority: the larger file loses to a
smaller file whose path avoids the /Recovered/ penalty, so a lower-priority
bonus overrides the top-priority size criterion. -/
theorem C2_counterexample :
    specLexBetter dupExA dupExB = true
    ∧ dupExB.Size < dupExA.Size
    ∧ dupExA ≠ dupExB
    ∧ chooseBestDuplicate [dupExA, dupExB] = some dupExB :=
  ⟨by decide, by decide, by decide, by decide⟩

/-- C2 (amended): the record selected as Best is the maximum of the additive
score computed in chooseBestDuplicate (size in KB, +1000000 for paths not
under /Recovered/, +500000 for organized-media marker paths, -500000 for
/UNNAMED_ paths, +10000 each for camera make and album metadata), with ties
broken by lexicographically smaller path; bonuses can outweigh a size
advantage, so the priority is additive, not lexicographic. -/
theorem C2_best_maximizes_additive_score (l : List MediaFile)
    (b : MediaFile) (hb : chooseBestDuplicate l = some b) :
    b ∈ l ∧ ∀ g ∈ l,
      score g < score b ∨ (score b = score g ∧ b.Path ≤ g.Path) := by
  obtain ⟨hmem, hle⟩ := chooseBest_isLeast l b hb
  exact ⟨hmem, fun g hg => (dupLE_iff b g).mp (hle g hg)⟩

/-- Witness for C2_best_maximizes_additive_score on the counterexample
pair. -/
theorem C2_best_maximizes_additive_score_witness :
    dupExB ∈ [dupExA, dupExB] ∧ ∀ g ∈ [dupExA, dupExB],
      score g < score dupExB ∨
        (score dupExB = score g ∧ dupExB.Path ≤ g.Path) :=
  C2_best_maximizes_additive_score [dupExA, dupExB] dupExB (by decide)

/-- C6: duplicate resolution is deterministic: on groups with pairwise
distinct paths, chooseBestDuplicate returns the same Best for every
permutation of the group (and, being a pure function of its input, the same
result on every invocation). -/
theorem C6_duplicate_determinism (l1 l2 : List MediaFile)
    (hperm : l1.Perm l2)
    (hpaths : l1.Pairwise (fun x y => x.Path ≠ y.Path)) :
    chooseBestDuplicate l1 = chooseBestDuplicate l2 := by
  cases h1 : chooseBestDuplicate l1 with
  | none =>
    have hn : l1 = [] := (chooseBest_none_iff l1).mp h1
    subst hn
    have hn2 : l2 = [] := hperm.symm.eq_nil
    subst hn2
    exact h1.symm
  | some b1 =>
    cases h2 : chooseBestDuplicate l2 with
    | none =>
      have hn2 : l2 = [] := (chooseBest_none_iff l2).mp h2
      subst hn2
      have hn : l1 = [] := hperm.eq_nil
      subst hn
      cases ((chooseBest_none_iff ([] : List MediaFile)).mpr rfl).symm.trans h1
    | some b2 =>
      obtain ⟨m1, le1⟩ := chooseBest_isLeast l1 b1 h1
      obtain ⟨m2, le2⟩ := chooseBest_isLeast l2 b2 h2
      have m2' : b2 ∈ l1 := hperm.mem_iff.mpr m2
      have m1' : b1 ∈ l2 := hperm.mem_iff.mp m1
      have h12 := (dupLE_iff b1 b2).mp (le1 b2 m2')
      have h21 := (dupLE_iff b2 b1).mp (le2 b1 m1')
      have heq : b1 = b2 := by
        by_contra hne
        have hsymm : Symmetric (fun x y : MediaFile => x.Path ≠ y.Path) :=
          fun x y h e => h e.symm
        have hpne : b1.Path ≠ b2.Path := hpaths.forall hsymm m1 m2' hne
        rcases h12 with hs1 | ⟨e1, p1⟩ <;> rcases h21 with hs2 | ⟨e2, p2⟩
        · omega
        · omega
        · omega
        · exact hpne (le_antisymm p1 p2)
      rw [heq]

/-- Distinct-path duplicate pair for the C6 witness. -/
def detExX : MediaFile :=
  { mkScannedFile "/x.jpg" 1024 .photo with Hash := "k" }

/-- Second member of the C6 witness pair. -/
def detExY : MediaFile :=
  { mkScannedFile "/y.jpg" 4096 .photo with Hash := "k" }

/-- Witness for C6_duplicate_determinism on a concrete transposition. -/
theorem C6_duplicate_determinism_witness :
    chooseBestDuplicate [detExX, detExY] =
      chooseBestDuplicate [detExY, detExX] :=
  C6_duplicate_determinism [detExX, detExY] [detExY, detExX]
    (List.Perm.swap detExY detExX []) (by decide)

/-- GoodFile: what the scanner guarantees for every accepted file: the
stored type is the detected type, the type is known, and no exclusion
pattern occurs in the path. -/
def GoodFile (mf : MediaFile) : Prop :=
  mf.MType = detectMediaType mf.Path
    ∧ detectMediaType mf.Path ≠ .unknown
    ∧ shouldExclude mf.Path = false

/-- WalkOk relates the scan state before and after visiting part of the
tree: files are only appended, every appended file is good, the count
tracks the list length, and a positive limit is never exceeded. -/
def WalkOk (limit : Int) (st st' : ScanSt) : Prop :=
  (∃ d, st'.files = st.files ++ d ∧ ∀ mf ∈ d, GoodFile mf)
    ∧ (st.count = st.files.length → st'.count = st'.files.length)
    ∧ (0 < limit → (st.count : Int) ≤ limit → (st'.count : Int) ≤ limit)

/-- WalkOk holds reflexively. -/
theorem walkOk_refl (limit : Int) (st : ScanSt) : WalkOk limit st st :=
  ⟨⟨[], by simp, by simp⟩, id, fun _ h => h⟩

/-- WalkOk composes along consecutive walk steps. -/
theorem walkOk_trans {limit : Int} {s1 s2 s3 : ScanSt}
    (h12 : WalkOk limit s1 s2) (h23 : WalkOk limit s2 s3) :
    WalkOk limit s1 s3 := by
  obtain ⟨⟨d1, hd1, hg1⟩, hc1, hb1⟩ := h12
  obtain ⟨⟨d2, hd2, hg2⟩, hc2, hb2⟩ := h23
  refine ⟨⟨d1 ++ d2, ?_, ?_⟩, fun h => hc2 (hc1 h),
    fun hp h => hb2 hp (hb1 hp h)⟩
  · rw [hd2, hd1, List.append_assoc]
  · intro mf hm
    rcases List.mem_append.mp hm with h | h
    · exact hg1 mf h
    · exact hg2 mf h

mutual

/-- Visiting one entry preserves the walk invariant. -/
theorem walkEntry_ok (limit : Int) (st : ScanSt) :
    ∀ e : FSEntry, WalkOk limit st (walkEntry limit st e).1
  | .file p sz => by
    unfold walkEntry
    by_cases h1 : detectMediaType p = .unknown
    · simp only [h1, if_true]
      exact walkOk_refl limit st
    · simp only [h1, if_false]
      by_cases h2 : shouldExclude p
      · simp only [h2, if_true]
        exact walkOk_refl limit st
      · simp only [h2, if_false]
        by_cases h3 : 0 < limit ∧ limit ≤ (st.count : Int)
        · rw [if_pos h3]
          exact walkOk_refl limit st
        · rw [if_neg h3]
          refine ⟨⟨[mkScannedFile p sz (detectMediaType p)], rfl, ?_⟩, ?_, ?_⟩
          · intro mf hm
            rcases List.mem_singleton.mp hm with rfl
            refine ⟨rfl, h1, ?_⟩
            simpa using h2
          · intro h
            simp [h]
          · intro hp hcnt
            push_neg at h3
            have hlt := h3 hp
            show ((st.count + 1 : Nat) : Int) ≤ limit
            omega
  | .dir p cs => by
    unfold walkEntry
    by_cases h : shouldExclude p
    · simp only [h, if_true]
      exact walkOk_refl limit st
    · simp only [h, if_false]
      exact walkChildren_ok limit st cs

/-- Visiting a child list preserves the walk invariant. -/
theorem walkChildren_ok (limit : Int) (st : ScanSt) :
    ∀ cs : List FSEntry, WalkOk limit st (walkChildren limit st cs)
  | [] => walkOk_refl limit st
  | c :: rest => by
    unfold walkChildren
    have hc := walkEntry_ok limit st c
    cases hw : walkEntry limit st c with
    | mk st' skip =>
      rw [hw] at hc
      cases skip
      · simp only
        exact walkOk_trans hc (walkChildren_ok limit st' rest)
      · simp only
        exact hc

end

/-- C7: every file returned by the scanner has a recognised media type
(its extension is in the photo/video/audio sets) and an exclusion-free
path; an excluded directory contributes nothing (its subtree is pruned);
and a positive cap bounds the size of the returned list. -/
theorem C7_scanner_contract (root : FSEntry) (limit : Int) :
    (∀ mf ∈ ScanMediaFiles root limit,
        mf.MType = detectMediaType mf.Path
        ∧ detectMediaType mf.Path ≠ .unknown
        ∧ shouldExclude mf.Path = false)
    ∧ (0 < limit → ((ScanMediaFiles root limit).length : Int) ≤ limit)
    ∧ (∀ p cs, shouldExclude p = true →
        ScanMediaFiles (.dir p cs) limit = []) := by
  refine ⟨?_, ?_, ?_⟩
  · intro mf hmf
    obtain ⟨⟨d, hd, hg⟩, _, _⟩ := walkEntry_ok limit ⟨[], 0⟩ root
    unfold ScanMediaFiles at hmf
    rw [hd] at hmf
    simp only [List.nil_append] at hmf
    exact hg mf hmf
  · intro hl
    obtain ⟨⟨d, hd, _⟩, hcnt, hbnd⟩ := walkEntry_ok limit ⟨[], 0⟩ root
    have h1 : (walkEntry limit ⟨[], 0⟩ root).1.count =
        (walkEntry limit ⟨[], 0⟩ root).1.files.length := hcnt rfl
    have h2 := hbnd hl (by simpa using hl.le)
    unfold ScanMediaFiles
    rw [← h1]
    exact h2
  · intro p cs hex
    unfold ScanMediaFiles walkEntry
    rw [if_pos hex]

/-- Witness for C7_scanner_contract: a concrete capped scan of a small tree
stays within the cap. -/
theorem C7_scanner_contract_witness :
    ((ScanMediaFiles
        (.dir "/r" [.file "/r/a.jpg" 10, .file "/r/b.jpg" 10,
          .file "/r/c.txt" 5]) 1).length : Int) ≤ 1 :=
  (C7_scanner_contract
      (.dir "/r" [.file "/r/a.jpg" 10, .file "/r/b.jpg" 10,
        .file "/r/c.txt" 5]) 1).2.1 (by decide)

/-- Every record stored in a group produced by insertGroup has the group's
key, provided the accumulator already satisfies that invariant. -/
theorem insertGroup_keys (key : MediaFile → String) (k : String)
    (mf : MediaFile) (hk : key mf = k) (gs : List (String × List MediaFile))
    (hinv : ∀ kg ∈ gs, ∀ f ∈ kg.2, key f = kg.1) :
    ∀ kg ∈ insertGroup k mf gs, ∀ f ∈ kg.2, key f = kg.1 := by
  induction gs with
  | nil =>
    intro kg hkg f hf
    simp only [insertGroup, List.mem_singleton] at hkg
    subst hkg
    rcases List.mem_singleton.mp hf with rfl
    exact hk
  | cons hd tl ih =>
    intro kg hkg f hf
    obtain ⟨k', g'⟩ := hd
    rw [insertGroup] at hkg
    by_cases he : k' = k
    · rw [if_pos he] at hkg
      rcases List.mem_cons.mp hkg with heq | hmem
      · subst heq
        rcases List.mem_append.mp hf with h | h
        · exact hinv (k', g') (List.mem_cons_self _ _) f h
        · rcases List.mem_singleton.mp h with rfl
          rw [hk, he]
      · exact hinv kg (List.mem_cons_of_mem _ hmem) f hf
    · rw [if_neg he] at hkg
      rcases List.mem_cons.mp hkg with heq | hmem
      · subst heq
        exact hinv (k', g') (List.mem_cons_self _ _) f hf
      · exact ih (fun kg h => hinv kg (List.mem_cons_of_mem _ h)) kg hmem f hf

/-- Every record in a group built by groupByKey has that group's key. -/
theorem groupByKey_keys (key : MediaFile → String) (files : List MediaFile) :
    ∀ kg ∈ groupByKey key files, ∀ f ∈ kg.2, key f = kg.1 := by
  suffices h : ∀ acc : List (String × List MediaFile),
      (∀ kg ∈ acc, ∀ f ∈ kg.2, key f = kg.1) →
      ∀ kg ∈ files.foldl (fun acc mf => insertGroup (key mf) mf acc) acc,
        ∀ f ∈ kg.2, key f = kg.1 by
    exact h [] (by simp)
  induction files with
  | nil =>
    intro acc hacc
    simpa using hacc
  | cons f fs ih =>
    intro acc hacc
    simp only [List.foldl_cons]
    exact ih _ (insertGroup_keys key (key f) f rfl acc hacc)

/-- Prepending a nonempty prefix x to the separator makes the head test for
the separator depend only on x followed by the separator's first two
characters. -/
theorem startsWith_sep_shift (x y : List Char) (hx : x ≠ []) :
    listStartsWith (x ++ (' ' :: '-' :: ' ' :: y)) [' ', '-', ' '] =
      listStartsWith (x ++ [' ', '-']) [' ', '-', ' '] := by
  rcases x with _ | ⟨c1, x⟩
  · exact absurd rfl hx
  · rcases x with _ | ⟨c2, x⟩
    · simp [listStartsWith]
    · rcases x with _ | ⟨c3, x⟩
      · simp [listStartsWith]
      · simp [listStartsWith]

/-- When the separator does not occur in artist ++ " -", the first
occurrence of " - " in artist ++ " - " ++ album is the explicit one, so the
index search recovers the original pair. -/
theorem splitFirstAux_clean (b : List Char) :
    ∀ a : List Char,
      listContainsSub [' ', '-', ' '] (a ++ [' ', '-']) = false →
      splitFirstAux [' ', '-', ' '] (a ++ (' ' :: '-' :: ' ' :: b)) =
        some (a, b)
  | [], _ => by
    show splitFirstAux [' ', '-', ' '] (' ' :: '-' :: ' ' :: b) = some ([], b)
    have hsw : listStartsWith (' ' :: '-' :: ' ' :: b) [' ', '-', ' '] =
        true := by
      simp [listStartsWith]
    rw [splitFirstAux, if_pos hsw]
    simp
  | c :: a, h => by
    rw [show (c :: a) ++ [' ', '-'] = c :: (a ++ [' ', '-']) from rfl,
      listContainsSub] at h
    rcases Bool.or_eq_false_iff.mp h with ⟨hsw, hrest⟩
    have hsw' : listStartsWith ((c :: a) ++ (' ' :: '-' :: ' ' :: b))
        [' ', '-', ' '] = false := by
      rw [startsWith_sep_shift (c :: a) b (by simp)]
      exact hsw
    show splitFirstAux [' ', '-', ' ']
        (c :: (a ++ (' ' :: '-' :: ' ' :: b))) = some (c :: a, b)
    rw [splitFirstAux]
    rw [if_neg (by simp [List.cons_append] at hsw' ⊢; simp [hsw'])]
    rw [splitFirstAux_clean b a hrest]
    rfl

/-- splitN2 inverts the "Artist - Album" key construction whenever the
separator does not occur inside artist ++ " -". -/
theorem splitN2_key (artist album : String)
    (h : strContains (artist ++ " -") " - " = false) :
    splitN2 (artist ++ " - " ++ album) " - " = (artist, album) := by
  unfold splitN2
  have hdata : (artist ++ " - " ++ album).data =
      artist.data ++ (' ' :: '-' :: ' ' :: album.data) := by
    simp [String.data_append]
  have hsep : (" - " : String).data = [' ', '-', ' '] := rfl
  have hpre : (artist ++ " -").data = artist.data ++ [' ', '-'] := by
    simp [String.data_append]
  rw [hdata, hsep]
  rw [splitFirstAux_clean album.data artist.data ?hc]
  case hc =>
    rw [strContains, hsep, hpre] at h
    exact h

/-- Concrete config for the C10 music theorems. -/
def musicCfg : Config :=
  ⟨"/scan", "/lib", "/trash", "m", true, 0, 1, false⟩

/-- Music record whose Artist itself contains " - " (the claim's divergence
case). -/
def musicDashRec : MediaFile :=
  { mkScannedFile "/m/s.mp3" 10 .music with Artist := "A - B", Album := "C" }

/-- Music record whose Artist ends in " -": it contains no " - ", yet the
key "A - - B" has its first separator inside the straddle, so the recovered
pair differs from (Artist, Album). -/
def musicEdgeRec : MediaFile :=
  { mkScannedFile "/m/e.mp3" 10 .music with Artist := "A -", Album := "B" }

/-- C10 counterexample: a record whose Artist contains no " - " for which
the computed destination is still not Music/{Artist}/{Album} — the artist
"A -" makes the key "A - - B" split at the straddling first occurrence. -/
theorem C10_counterexample :
    strContains musicEdgeRec.Artist " - " = false
    ∧ (organizeMusicFiles [musicEdgeRec] musicCfg).map
        (fun a => a.Destination) = ["/lib/Music/A/- B"]
    ∧ "/lib/Music/A/- B" ≠
        goJoin4 "/lib" "Music" musicEdgeRec.Artist musicEdgeRec.Album :=
  ⟨by decide, by decide, by decide⟩

/-- C10 (amended): organizeMusicFiles rebuilds the destination from the
group key by splitting at the FIRST " - ", so for every music record whose
fallback artist followed by " -" contains no " - " (in particular the
artist neither contains " - " nor ends with " -") the destination is
Music/{Artist}/{Album}; and for a record whose Artist does contain " - "
the artist/album components of the destination differ from the record's
fields. -/
theorem C10_music_destination (files : List MediaFile) (cfg : Config)
    (A : Album) (hA : A ∈ organizeMusicFiles files cfg) (mf : MediaFile)
    (hmf : mf ∈ A.Files)
    (hclean : strContains (musicKeyArtist mf ++ " -") " - " = false) :
    (A.Destination = goJoin4 cfg.LibraryBase "Music" (musicKeyArtist mf)
        (musicKeyAlbum mf))
    ∧ (organizeMusicFiles [musicDashRec] musicCfg).map
        (fun a => a.Destination) = ["/lib/Music/A/B - C"]
    ∧ "A" ≠ musicDashRec.Artist := by
  refine ⟨?_, by decide, by decide⟩
  unfold organizeMusicFiles at hA
  rcases List.mem_map.mp hA with ⟨ng, hng, hAeq⟩
  have hkey := groupByKey_keys
    (fun mf => musicKeyArtist mf ++ " - " ++ musicKeyAlbum mf)
    (files.filter (fun mf => mf.MType == .music)) ng hng mf
    (by rw [← hAeq] at hmf; exact hmf)
  rw [← hAeq]
  show goJoin4 cfg.LibraryBase "Music" (splitN2 ng.1 " - ").1
      (splitN2 ng.1 " - ").2 = _
  rw [← hkey, splitN2_key _ _ hclean]

/-- Witness for C10_music_destination on a clean-artist record. -/
def musicCleanRec : MediaFile :=
  { mkScannedFile "/m/c.mp3" 10 .music with Artist := "X", Album := "Y" }

/-- Witness for C10_music_destination: a clean artist/album pair round-trips
into the destination. -/
theorem C10_music_destination_witness :
    (({ Name := "X - Y", Destination := "/lib/Music/X/Y",
        Files := [musicCleanRec], SourceDirs := ["various"], Date := none,
        MType := .music } : Album).Destination =
      goJoin4 musicCfg.LibraryBase "Music" (musicKeyArtist musicCleanRec)
        (musicKeyAlbum musicCleanRec))
    ∧ (organizeMusicFiles [musicDashRec] musicCfg).map
        (fun a => a.Destination) = ["/lib/Music/A/B - C"]
    ∧ "A" ≠ musicDashRec.Artist :=
  C10_music_destination [musicCleanRec] musicCfg
    { Name := "X - Y", Destination := "/lib/Music/X/Y",
      Files := [musicCleanRec], SourceDirs := ["various"], Date := none,
      MType := .music } (by decide) musicCleanRec (by decide) (by decide)

/-- lookupGroup finds the group stored under a key (the Go map read). -/
def lookupGroup (d : String) : List (String × List MediaFile) →
    List MediaFile
  | [] => []
  | (k, g) :: rest => if k = d then g else lookupGroup d rest

/-- insertGroup updates exactly the looked-up key. -/
theorem lookupGroup_insert (k d : String) (mf : MediaFile) :
    ∀ gs, lookupGroup d (insertGroup k mf gs) =
      if k = d then lookupGroup d gs ++ [mf] else lookupGroup d gs
  | [] => by
    by_cases h : k = d <;> simp [insertGroup, lookupGroup, h]
  | (k', g') :: gs => by
    by_cases h1 : k' = k
    · subst h1
      rw [insertGroup, if_pos rfl]
      by_cases h2 : k' = d <;> simp [lookupGroup, h2]
    · rw [insertGroup, if_neg h1]
      by_cases h2 : k' = d
      · subst h2
        have hk : ¬ k = k' := fun he => h1 he.symm
        simp [lookupGroup, hk]
      · simp [lookupGroup, h2, lookupGroup_insert k d mf gs]

/-- Folding records into the grouping map appends, per key, exactly the
records with that key, in input order. -/
theorem lookupGroup_fold (key : MediaFile → String) (d : String) :
    ∀ (files : List MediaFile) (acc : List (String × List MediaFile)),
      lookupGroup d
          (files.foldl (fun acc mf => insertGroup (key mf) mf acc) acc) =
        lookupGroup d acc ++ files.filter (fun f => key f == d)
  | [], acc => by simp
  | f :: fs, acc => by
    simp only [List.foldl_cons, List.filter_cons]
    rw [lookupGroup_fold key d fs, lookupGroup_insert]
    by_cases h : key f = d
    · simp [h, List.append_assoc]
    · simp [h, beq_eq_false_iff_ne.mpr h]

/-- The group a key maps to in groupByKey is the filter of the input by
that key. -/
theorem lookupGroup_groupByKey (key : MediaFile → String) (d : String)
    (files : List MediaFile) :
    lookupGroup d (groupByKey key files) =
      files.filter (fun f => key f == d) := by
  unfold groupByKey
  rw [lookupGroup_fold]
  simp [lookupGroup]

/-- A key whose lookup is nonempty is present in the association list with
exactly its looked-up group. -/
theorem lookup_mem (d : String) :
    ∀ gs, lookupGroup d gs ≠ [] → (d, lookupGroup d gs) ∈ gs
  | [], h => absurd rfl h
  | (k, g) :: rest, h => by
    rw [lookupGroup] at h ⊢
    by_cases hk : k = d
    · subst hk
      rw [if_pos rfl] at h ⊢
      exact List.mem_cons_self _ _
    · rw [if_neg hk] at h ⊢
      exact List.mem_cons_of_mem _ (lookup_mem d rest h)

/-- Keys of the grouping map are pairwise distinct. -/
theorem insertGroup_fst_sub (k : String) (mf : MediaFile) :
    ∀ gs, ∀ kg ∈ insertGroup k mf gs, kg.1 = k ∨ ∃ kg' ∈ gs, kg.1 = kg'.1
  | [], kg, h => by
    rcases List.mem_singleton.mp h with rfl
    exact Or.inl rfl
  | (k', g') :: rest, kg, h => by
    rw [insertGroup] at h
    by_cases he : k' = k
    · rw [if_pos he] at h
      rcases List.mem_cons.mp h with rfl | hm
      · exact Or.inr ⟨(k', g'), List.mem_cons_self _ _, rfl⟩
      · exact Or.inr ⟨kg, List.mem_cons_of_mem _ hm, rfl⟩
    · rw [if_neg he] at h
      rcases List.mem_cons.mp h with rfl | hm
      · exact Or.inr ⟨(k', g'), List.mem_cons_self _ _, rfl⟩
      · rcases insertGroup_fst_sub k mf rest kg hm with h1 | ⟨kg', hkg', he'⟩
        · exact Or.inl h1
        · exact Or.inr ⟨kg', List.mem_cons_of_mem _ hkg', he'⟩

/-- insertGroup preserves pairwise-distinct keys. -/
theorem insertGroup_keysDistinct (k : String) (mf : MediaFile) :
    ∀ gs, gs.Pairwise (fun a b => a.1 ≠ b.1) →
      (insertGroup k mf gs).Pairwise (fun a b => a.1 ≠ b.1)
  | [], _ => List.pairwise_singleton _ _
  | (k', g') :: rest, h => by
    obtain ⟨hhead, htail⟩ := List.pairwise_cons.mp h
    rw [insertGroup]
    by_cases he : k' = k
    · rw [if_pos he]
      exact List.pairwise_cons.mpr ⟨hhead, htail⟩
    · rw [if_neg he]
      refine List.pairwise_cons.mpr ⟨?_, insertGroup_keysDistinct k mf rest htail⟩
      intro kg hkg
      rcases insertGroup_fst_sub k mf rest kg hkg with h1 | ⟨kg', hkg', he'⟩
      · rw [h1]
        exact he
      · rw [he']
        exact hhead kg' hkg'

/-- groupByKey produces pairwise-distinct keys. -/
theorem groupByKey_keysDistinct (key : MediaFile → String)
    (files : List MediaFile) :
    (groupByKey key files).Pairwise (fun a b => a.1 ≠ b.1) := by
  suffices h : ∀ acc : List (String × List MediaFile),
      acc.Pairwise (fun a b => a.1 ≠ b.1) →
      (files.foldl (fun acc mf => insertGroup (key mf) mf acc) acc).Pairwise
        (fun a b => a.1 ≠ b.1) by
    exact h [] List.Pairwise.nil
  induction files with
  | nil => intro acc hacc; simpa using hacc
  | cons f fs ih =>
    intro acc hacc
    simp only [List.foldl_cons]
    exact ih _ (insertGroup_keysDistinct (key f) f acc hacc)

/-- With distinct keys, membership determines the looked-up group. -/
theorem mem_lookup_of_keysDistinct (d : String) (g : List MediaFile) :
    ∀ gs, gs.Pairwise (fun a b => a.1 ≠ b.1) → (d, g) ∈ gs →
      lookupGroup d gs = g
  | [], _, h => absurd h (List.not_mem_nil _)
  | (k', g') :: rest, hp, h => by
    obtain ⟨hhead, htail⟩ := List.pairwise_cons.mp hp
    rcases List.mem_cons.mp h with heq | hmem
    · rw [lookupGroup]
      have h1 : k' = d := congrArg Prod.fst heq.symm
      rw [if_pos h1]
      exact (congrArg Prod.snd heq.symm)
    · rw [lookupGroup]
      have h1 : k' ≠ d := hhead (d, g) hmem
      rw [if_neg h1]
      exact mem_lookup_of_keysDistinct d g rest htail hmem

/-- mergedAlbum is the in-place update the organizer applies when a new
group's album name matches an existing album. -/
def mergedAlbum (sd : String) (g : List MediaFile) (A : Album) : Album :=
  { A with Files := A.Files ++ g, SourceDirs := A.SourceDirs ++ [sd] }

/-- Every album in the output of a successful merge is either untouched or
the in-place extension of an album of the input. -/
theorem mergeFirst_mem_src (name sd : String) (g : List MediaFile) :
    ∀ st st', mergeAlbumIntoFirst name sd g st = some st' →
      ∀ A' ∈ st', A' ∈ st ∨ ∃ A ∈ st, A' = mergedAlbum sd g A
  | [], st', h => by cases h
  | a :: rest, st', h => by
    by_cases hn : a.Name = name
    · simp only [mergeAlbumIntoFirst, if_pos hn, Option.some.injEq] at h
      subst h
      intro A' hA'
      rcases List.mem_cons.mp hA' with rfl | hmem
      · exact Or.inr ⟨a, List.mem_cons_self _ _, rfl⟩
      · exact Or.inl (List.mem_cons_of_mem _ hmem)
    · simp only [mergeAlbumIntoFirst, if_neg hn] at h
      cases hm : mergeAlbumIntoFirst name sd g rest with
      | none => rw [hm] at h; cases h
      | some st'' =>
        rw [hm] at h
        simp only [Option.map_some', Option.some.injEq] at h
        subst h
        intro A' hA'
        rcases List.mem_cons.mp hA' with rfl | hmem
        · exact Or.inl (List.mem_cons_self _ _)
        · rcases mergeFirst_mem_src name sd g rest st'' hm A' hmem with
            h1 | ⟨A, hA, he⟩
          · exact Or.inl (List.mem_cons_of_mem _ h1)
          · exact Or.inr ⟨A, List.mem_cons_of_mem _ hA, he⟩

/-- Every album of the input survives a successful merge, either untouched
or extended in place. -/
theorem mergeFirst_image (name sd : String) (g : List MediaFile) :
    ∀ st st', mergeAlbumIntoFirst name sd g st = some st' →
      ∀ A ∈ st, A ∈ st' ∨ mergedAlbum sd g A ∈ st'
  | [], st', h => by cases h
  | a :: rest, st', h => by
    by_cases hn : a.Name = name
    · simp only [mergeAlbumIntoFirst, if_pos hn, Option.some.injEq] at h
      subst h
      intro A hA
      rcases List.mem_cons.mp hA with rfl | hmem
      · exact Or.inr (List.mem_cons_self _ _)
      · exact Or.inl (List.mem_cons_of_mem _ hmem)
    · simp only [mergeAlbumIntoFirst, if_neg hn] at h
      cases hm : mergeAlbumIntoFirst name sd g rest with
      | none => rw [hm] at h; cases h
      | some st'' =>
        rw [hm] at h
        simp only [Option.map_some', Option.some.injEq] at h
        subst h
        intro A hA
        rcases List.mem_cons.mp hA with rfl | hmem
        · exact Or.inl (List.mem_cons_self _ _)
        · rcases mergeFirst_image name sd g rest st'' hm A hmem with h1 | h1
          · exact Or.inl (List.mem_cons_of_mem _ h1)
          · exact Or.inr (List.mem_cons_of_mem _ h1)

/-- A successful merge put the extension of some input album into the
output. -/
theorem mergeFirst_adds (name sd : String) (g : List MediaFile) :
    ∀ st st', mergeAlbumIntoFirst name sd g st = some st' →
      ∃ A ∈ st, mergedAlbum sd g A ∈ st'
  | [], st', h => by cases h
  | a :: rest, st', h => by
    by_cases hn : a.Name = name
    · simp only [mergeAlbumIntoFirst, if_pos hn, Option.some.injEq] at h
      subst h
      exact ⟨a, List.mem_cons_self _ _, List.mem_cons_self _ _⟩
    · simp only [mergeAlbumIntoFirst, if_neg hn] at h
      cases hm : mergeAlbumIntoFirst name sd g rest with
      | none => rw [hm] at h; cases h
      | some st'' =>
        rw [hm] at h
        simp only [Option.map_some', Option.some.injEq] at h
        subst h
        obtain ⟨A, hA, hmem⟩ := mergeFirst_adds name sd g rest st'' hm
        exact ⟨A, List.mem_cons_of_mem _ hA,
          List.mem_cons_of_mem _ hmem⟩

/-- HasDirAlbum d S st: some album of st lists d among its source
directories and contains all of S. -/
def HasDirAlbum (d : String) (S : List MediaFile) (st : List Album) : Prop :=
  ∃ A ∈ st, d ∈ A.SourceDirs ∧ ∀ x ∈ S, x ∈ A.Files

/-- processDir with a too-small group is the identity. -/
theorem processDir_skip (env : NamingEnv) (cfg : Config) (st : List Album)
    (k : String) (g : List MediaFile) (h : g.length < 3) :
    processDir env cfg st k g = st := by
  unfold processDir
  rw [if_pos h]

/-- Each per-directory step preserves HasDirAlbum: albums are never removed
and in-place merges only extend file sets and source lists. -/
theorem processDir_preserves (env : NamingEnv) (cfg : Config) (d : String)
    (S : List MediaFile) (st : List Album) (k : String) (g : List MediaFile)
    (h : HasDirAlbum d S st) :
    HasDirAlbum d S (processDir env cfg st k g) := by
  unfold processDir
  by_cases hlen : g.length < 3
  · rw [if_pos hlen]
    exact h
  · rw [if_neg hlen]
    cases g with
    | nil => exact h
    | cons f0 t =>
      show HasDirAlbum d S
        (match mergeAlbumIntoFirst (albumFor env cfg k (f0 :: t) f0).Name k
            (f0 :: t) st with
        | some st' => st'
        | none => st ++ [albumFor env cfg k (f0 :: t) f0])
      obtain ⟨A, hA, hd, hS⟩ := h
      cases hm : mergeAlbumIntoFirst
          (albumFor env cfg k (f0 :: t) f0).Name k (f0 :: t) st with
      | some st' =>
        rcases mergeFirst_image _ _ _ st st' hm A hA with h1 | h1
        · exact ⟨A, h1, hd, hS⟩
        · refine ⟨mergedAlbum k (f0 :: t) A, h1, ?_, ?_⟩
          · exact List.mem_append_left _ hd
          · intro x hx
            exact List.mem_append_left _ (hS x hx)
      | none =>
        exact ⟨A, List.mem_append_left _ hA, hd, hS⟩

/-- Processing a qualifying directory group establishes HasDirAlbum for
that directory and its group. -/
theorem processDir_establishes (env : NamingEnv) (cfg : Config)
    (st : List Album) (d : String) (g : List MediaFile)
    (hlen : ¬ g.length < 3) :
    HasDirAlbum d g (processDir env cfg st d g) := by
  unfold processDir
  rw [if_neg hlen]
  cases g with
  | nil => exact absurd (by simp) hlen
  | cons f0 t =>
    show HasDirAlbum d (f0 :: t)
      (match mergeAlbumIntoFirst (albumFor env cfg d (f0 :: t) f0).Name d
          (f0 :: t) st with
      | some st' => st'
      | none => st ++ [albumFor env cfg d (f0 :: t) f0])
    cases hm : mergeAlbumIntoFirst
        (albumFor env cfg d (f0 :: t) f0).Name d (f0 :: t) st with
    | some st' =>
      obtain ⟨A, _, hmem⟩ := mergeFirst_adds _ _ _ st st' hm
      refine ⟨mergedAlbum d (f0 :: t) A, hmem, ?_, ?_⟩
      · exact List.mem_append_right _ (List.mem_singleton.mpr rfl)
      · intro x hx
        exact List.mem_append_right _ hx
    | none =>
      refine ⟨albumFor env cfg d (f0 :: t) f0,
        List.mem_append_right _ (List.mem_singleton.mpr rfl), ?_, ?_⟩
      · exact List.mem_singleton.mpr rfl
      · intro x hx
        exact hx

/-- The per-directory fold preserves HasDirAlbum. -/
theorem fold_preserves (env : NamingEnv) (cfg : Config) (d : String)
    (S : List MediaFile) :
    ∀ (groups : List (String × List MediaFile)) (st : List Album),
      HasDirAlbum d S st →
      HasDirAlbum d S
        (groups.foldl (fun st kg => processDir env cfg st kg.1 kg.2) st)
  | [], _, h => h
  | kg :: rest, st, h => by
    simp only [List.foldl_cons]
    exact fold_preserves env cfg d S rest _
      (processDir_preserves env cfg d S st kg.1 kg.2 h)

/-- A qualifying directory group anywhere in the fold input yields an album
carrying that directory and containing the whole group. -/
theorem fold_establishes (env : NamingEnv) (cfg : Config) (d : String)
    (g : List MediaFile) (hlen : ¬ g.length < 3) :
    ∀ (groups : List (String × List MediaFile)) (st : List Album),
      (d, g) ∈ groups →
      HasDirAlbum d g
        (groups.foldl (fun st kg => processDir env cfg st kg.1 kg.2) st)
  | [], _, h => absurd h (List.not_mem_nil _)
  | kg :: rest, st, h => by
    simp only [List.foldl_cons]
    rcases List.mem_cons.mp h with heq | hmem
    · rw [← heq]
      exact fold_preserves env cfg d g rest _
        (processDir_establishes env cfg st d g hlen)
    · exact fold_establishes env cfg d g hlen rest _ hmem

/-- The per-directory step never adds a foreign directory to any album's
source list. -/
theorem processDir_no_new_dir (env : NamingEnv) (cfg : Config)
    (st : List Album) (k : String) (g : List MediaFile) (d : String)
    (hkd : k ≠ d) (h : ∀ A ∈ st, d ∉ A.SourceDirs) :
    ∀ A ∈ processDir env cfg st k g, d ∉ A.SourceDirs := by
  unfold processDir
  by_cases hlen : g.length < 3
  · rw [if_pos hlen]
    exact h
  · rw [if_neg hlen]
    cases g with
    | nil => exact h
    | cons f0 t =>
      show ∀ A ∈
        (match mergeAlbumIntoFirst (albumFor env cfg k (f0 :: t) f0).Name k
            (f0 :: t) st with
        | some st' => st'
        | none => st ++ [albumFor env cfg k (f0 :: t) f0]), d ∉ A.SourceDirs
      cases hm : mergeAlbumIntoFirst
          (albumFor env cfg k (f0 :: t) f0).Name k (f0 :: t) st with
      | some st' =>
        intro A' hA'
        rcases mergeFirst_mem_src _ _ _ st st' hm A' hA' with
          h1 | ⟨A, hA, he⟩
        · exact h A' h1
        · subst he
          intro hd
          rcases List.mem_append.mp hd with h2 | h2
          · exact h A hA h2
          · exact hkd (List.mem_singleton.mp h2).symm
      | none =>
        intro A' hA'
        rcases List.mem_append.mp hA' with h1 | h1
        · exact h A' h1
        · rcases List.mem_singleton.mp h1 with rfl
          intro hd
          exact hkd (List.mem_singleton.mp hd).symm

/-- When every group keyed by d in the fold input is below the album
threshold, no album of the fold output lists d as a source directory. -/
theorem fold_no_dir (env : NamingEnv) (cfg : Config) (d : String) :
    ∀ (groups : List (String × List MediaFile)) (st : List Album),
      (∀ g, (d, g) ∈ groups → g.length < 3) →
      (∀ A ∈ st, d ∉ A.SourceDirs) →
      ∀ A ∈ groups.foldl (fun st kg => processDir env cfg st kg.1 kg.2) st,
        d ∉ A.SourceDirs
  | [], _, _, h => h
  | (k, g) :: rest, st, hgs, h => by
    simp only [List.foldl_cons]
    by_cases hkd : k = d
    · subst hkd
      have hlen : g.length < 3 := hgs g (List.mem_cons_self _ _)
      rw [processDir_skip env cfg st k g hlen]
      exact fold_no_dir env cfg k rest st
        (fun g' hg' => hgs g' (List.mem_cons_of_mem _ hg')) h
    · exact fold_no_dir env cfg d rest _
        (fun g' hg' => hgs g' (List.mem_cons_of_mem _ hg'))
        (processDir_no_new_dir env cfg st k g d hkd h)

/-- Albums surviving the new-files filter keep their source list and type,
and come from the unfiltered plan. -/
theorem filterAlbums_src (albums : List Album) :
    ∀ A' ∈ filterAlbumsWithNewFiles albums,
      ∃ A ∈ albums, A'.SourceDirs = A.SourceDirs ∧ A'.MType = A.MType := by
  induction albums with
  | nil => intro A' h; cases h
  | cons a rest ih =>
    intro A' h
    rw [filterAlbumsWithNewFiles] at h
    by_cases hnf : (newFilesOf a.Destination a.Files).isEmpty
    · rw [if_pos hnf] at h
      obtain ⟨A, hA, he⟩ := ih A' h
      exact ⟨A, List.mem_cons_of_mem _ hA, he⟩
    · rw [if_neg hnf] at h
      rcases List.mem_cons.mp h with rfl | hmem
      · exact ⟨a, List.mem_cons_self _ _, rfl, rfl⟩
      · obtain ⟨A, hA, he⟩ := ih A' hmem
        exact ⟨A, List.mem_cons_of_mem _ hA, he⟩

/-- An album containing a new file survives the new-files filter with its
source list intact. -/
theorem filterAlbums_keeps (albums : List Album) (A : Album)
    (hA : A ∈ albums) (mf : MediaFile) (hmf : mf ∈ A.Files)
    (hnew : mf.IsNew = true) :
    ∃ A' ∈ filterAlbumsWithNewFiles albums, A'.SourceDirs = A.SourceDirs := by
  induction albums with
  | nil => cases hA
  | cons a rest ih =>
    rw [filterAlbumsWithNewFiles]
    rcases List.mem_cons.mp hA with rfl | hmem
    · have hin : mf ∈ newFilesOf A.Destination A.Files := by
        rw [newFilesOf, List.mem_filter]
        exact ⟨hmf, by simp [hnew]⟩
      have hne : ¬ (newFilesOf A.Destination A.Files).isEmpty := by
        cases hh : newFilesOf A.Destination A.Files with
        | nil => rw [hh] at hin; cases hin
        | cons x xs => simp [List.isEmpty]
      rw [if_neg hne]
      exact ⟨_, List.mem_cons_self _ _, rfl⟩
    · by_cases hnf : (newFilesOf a.Destination a.Files).isEmpty
      · rw [if_pos hnf]
        exact ih hmem
      · rw [if_neg hnf]
        obtain ⟨A', hA', he⟩ := ih hmem
        exact ⟨A', List.mem_cons_of_mem _ hA', he⟩

/-- Every album produced by organizeMusicFiles has the music type. -/
theorem organizeMusic_mtype (files : List MediaFile) (cfg : Config) :
    ∀ A ∈ organizeMusicFiles files cfg, A.MType = .music := by
  intro A hA
  unfold organizeMusicFiles at hA
  rcases List.mem_map.mp hA with ⟨ng, _, he⟩
  rw [← he]

/-- nonMusicDirCount counts the non-music records of the input whose
containing directory is d — the size of d's group in the organizer's
by-directory partition. -/
def nonMusicDirCount (files : List MediaFile) (d : String) : Nat :=
  ((files.filter (fun mf => !(mf.MType == MediaType.music))).filter
    (fun mf => goDir mf.Path == d)).length

/-- C8 (amended): a source directory contributing exactly 2 non-audio
records never yields an album (no non-music album of the result lists it as
a source), and a source directory contributing exactly 3 non-audio records
yields an album in the result provided at least one of its records is new
(the final new-files filter drops albums whose files are all already
settled at their destination). -/
theorem C8_album_threshold (env : NamingEnv) (cfg : Config)
    (files : List MediaFile) (d : String) :
    (nonMusicDirCount files d = 2 →
      ∀ A ∈ OrganizeIntoAlbums env cfg files,
        A.MType ≠ .music → d ∉ A.SourceDirs)
    ∧ (nonMusicDirCount files d = 3 →
        (∃ f ∈ files, f.MType ≠ .music ∧ goDir f.Path = d ∧
          f.IsNew = true) →
        ∃ A ∈ OrganizeIntoAlbums env cfg files, d ∈ A.SourceDirs) := by
  constructor
  · intro h2 A hA hmt hd
    simp only [OrganizeIntoAlbums] at hA
    obtain ⟨A0, hA0, hsrc, htype⟩ := filterAlbums_src _ A hA
    rcases List.mem_append.mp hA0 with hfold | hmusic
    · refine fold_no_dir env cfg d
        (groupByKey (fun mf => goDir mf.Path)
          (files.filter (fun mf => !(mf.MType == .music)))) []
        ?_ (by simp) A0 hfold (hsrc ▸ hd)
      intro g hg
      have hdk := groupByKey_keysDistinct (fun mf => goDir mf.Path)
        (files.filter (fun mf => !(mf.MType == .music)))
      have hlk := mem_lookup_of_keysDistinct d g _ hdk hg
      rw [lookupGroup_groupByKey] at hlk
      rw [← hlk]
      unfold nonMusicDirCount at h2
      rw [h2]
      omega
    · have hmm := organizeMusic_mtype files cfg A0 hmusic
      exact hmt (htype.trans hmm)
  · intro h3 hex
    obtain ⟨f, hf, hfm, hfd, hfnew⟩ := hex
    have hlook := lookupGroup_groupByKey (fun mf => goDir mf.Path) d
      (files.filter (fun mf => !(mf.MType == .music)))
    have hlen3 : ((files.filter (fun mf => !(mf.MType == .music))).filter
        (fun mf => goDir mf.Path == d)).length = 3 := h3
    have hGne : (files.filter (fun mf => !(mf.MType == .music))).filter
        (fun mf => goDir mf.Path == d) ≠ [] := by
      intro he
      rw [he] at hlen3
      cases hlen3
    have hmem := lookup_mem d
      (groupByKey (fun mf => goDir mf.Path)
        (files.filter (fun mf => !(mf.MType == .music))))
      (by rw [hlook]; exact hGne)
    rw [hlook] at hmem
    have hnotlt : ¬ ((files.filter (fun mf => !(mf.MType == .music))).filter
        (fun mf => goDir mf.Path == d)).length < 3 := by
      rw [hlen3]
      omega
    obtain ⟨A0, hA0, hd0, hsub⟩ := fold_establishes env cfg d _ hnotlt
      (groupByKey (fun mf => goDir mf.Path)
        (files.filter (fun mf => !(mf.MType == .music)))) [] hmem
    have hfG : f ∈ (files.filter (fun mf => !(mf.MType == .music))).filter
        (fun mf => goDir mf.Path == d) := by
      rw [List.mem_filter]
      refine ⟨?_, by simp [hfd]⟩
      rw [List.mem_filter]
      exact ⟨hf, by simp [hfm]⟩
    have hA0' : A0 ∈
        ((groupByKey (fun mf => goDir mf.Path)
            (files.filter (fun mf => !(mf.MType == .music)))).foldl
          (fun st kg => processDir env cfg st kg.1 kg.2) []) ++
          organizeMusicFiles files cfg :=
      List.mem_append_left _ hA0
    obtain ⟨A', hA', hsrc⟩ :=
      filterAlbums_keeps _ A0 hA0' f (hsub f hfG) hfnew
    refine ⟨A', ?_, hsrc ▸ hd0⟩
    simp only [OrganizeIntoAlbums]
    exact hA'

/-- Naming environment for the C8 counterexample and C9 theorems: the
suggestion service is up and always proposes the album name "X". -/
def cexEnv : NamingEnv :=
  ⟨true, fun _ _ => none, fun _ _ => some "X"⟩

/-- Concrete config for the C8/C9 organizer examples. -/
def cexCfg : Config :=
  ⟨"/scan", "/lib", "/trash", "m", true, 0, 1, false⟩

/-- A settled photo already sitting at the computed destination
/lib/Photos/Unknown/X (no date, not new). -/
def cexSettled (n : String) : MediaFile :=
  mkScannedFile ("/lib/Photos/Unknown/X/" ++ n) 10 .photo

/-- C8 counterexample: a directory contributing exactly 3 non-audio records
can yield NO album in the result: when the naming service maps the
directory to a name whose computed destination is the directory itself and
no record is new, the final new-files filter drops the album. -/
theorem C8_counterexample :
    nonMusicDirCount
        [cexSettled "a.jpg", cexSettled "b.jpg", cexSettled "c.jpg"]
        "/lib/Photos/Unknown/X" = 3
    ∧ OrganizeIntoAlbums cexEnv cexCfg
        [cexSettled "a.jpg", cexSettled "b.jpg", cexSettled "c.jpg"] = [] :=
  ⟨by decide, by decide⟩

/-- Naming environment with the suggestion service down (fallback naming). -/
def thrEnv : NamingEnv :=
  ⟨false, fun _ _ => none, fun _ _ => none⟩

/-- A new photo in the directory /d for the C8 witness. -/
def thrNew (n : String) : MediaFile :=
  { mkScannedFile ("/d/" ++ n) 10 .photo with IsNew := true }

/-- Witness for C8_album_threshold: three new files in one directory do
yield an album listing the directory. -/
theorem C8_album_threshold_witness :
    nonMusicDirCount [thrNew "a.jpg", thrNew "b.jpg", thrNew "c.jpg"]
        "/d" = 3
    ∧ ∃ A ∈ OrganizeIntoAlbums thrEnv cexCfg
        [thrNew "a.jpg", thrNew "b.jpg", thrNew "c.jpg"], "/d" ∈ A.SourceDirs :=
  ⟨by decide,
    (C8_album_threshold thrEnv cexCfg
        [thrNew "a.jpg", thrNew "b.jpg", thrNew "c.jpg"] "/d").2 (by decide)
      ⟨thrNew "a.jpg", by decide, by decide, by decide, by decide⟩⟩

/-- Inserting under a key absent from the map appends a fresh group. -/
theorem insertGroup_absent (k : String) (mf : MediaFile) :
    ∀ gs, (∀ kg ∈ gs, kg.1 ≠ k) → insertGroup k mf gs = gs ++ [(k, [mf])]
  | [], _ => rfl
  | (k', g') :: rest, h => by
    rw [insertGroup,
      if_neg (fun he => h (k', g') (List.mem_cons_self _ _) he)]
    rw [insertGroup_absent k mf rest
      (fun kg hkg => h kg (List.mem_cons_of_mem _ hkg))]
    rfl

/-- Inserting under the key of the trailing group extends that group. -/
theorem insertGroup_last (k : String) (mf : MediaFile) (g : List MediaFile) :
    ∀ pre, (∀ kg ∈ pre, kg.1 ≠ k) →
      insertGroup k mf (pre ++ [(k, g)]) = pre ++ [(k, g ++ [mf])]
  | [], _ => by simp [insertGroup]
  | (k', g') :: pre, h => by
    rw [List.cons_append, insertGroup,
      if_neg (fun he => h (k', g') (List.mem_cons_self _ _) he)]
    rw [insertGroup_last k mf g pre
      (fun kg hkg => h kg (List.mem_cons_of_mem _ hkg))]
    rfl

/-- Folding records that all carry the key of the trailing group extends
that group in order. -/
theorem foldIns_const_key (key : MediaFile → String) (d : String) :
    ∀ (l : List MediaFile) (pre : List (String × List MediaFile))
      (g : List MediaFile),
      (∀ f ∈ l, key f = d) → (∀ kg ∈ pre, kg.1 ≠ d) →
      l.foldl (fun acc mf => insertGroup (key mf) mf acc)
          (pre ++ [(d, g)]) = pre ++ [(d, g ++ l)]
  | [], pre, g, _, _ => by simp
  | f :: fs, pre, g, hl, hpre => by
    simp only [List.foldl_cons]
    rw [hl f (List.mem_cons_self _ _), insertGroup_last d f g pre hpre]
    rw [foldIns_const_key key d fs pre (g ++ [f])
      (fun x hx => hl x (List.mem_cons_of_mem _ hx)) hpre]
    simp

/-- Folding a nonempty constant-key record list into a map without that key
appends exactly one group holding the whole list. -/
theorem foldIns_const_new (key : MediaFile → String) (d : String)
    (l : List MediaFile) (pre : List (String × List MediaFile))
    (hne : l ≠ []) (hl : ∀ f ∈ l, key f = d)
    (hpre : ∀ kg ∈ pre, kg.1 ≠ d) :
    l.foldl (fun acc mf => insertGroup (key mf) mf acc) pre =
      pre ++ [(d, l)] := by
  cases l with
  | nil => exact absurd rfl hne
  | cons f fs =>
    simp only [List.foldl_cons]
    rw [hl f (List.mem_cons_self _ _), insertGroup_absent d f pre hpre]
    rw [foldIns_const_key key d fs pre [f]
      (fun x hx => hl x (List.mem_cons_of_mem _ hx)) hpre]
    rfl

/-- Grouping the concatenation of two constant-key blocks with distinct keys
yields exactly the two groups in order. -/
theorem groupByKey_two_dirs (key : MediaFile → String) (d1 d2 : String)
    (l1 l2 : List MediaFile) (h1 : ∀ f ∈ l1, key f = d1)
    (h2 : ∀ f ∈ l2, key f = d2) (hne : d1 ≠ d2) (hl1 : l1 ≠ [])
    (hl2 : l2 ≠ []) :
    groupByKey key (l1 ++ l2) = [(d1, l1), (d2, l2)] := by
  unfold groupByKey
  rw [List.foldl_append]
  rw [foldIns_const_new key d1 l1 [] hl1 h1 (by simp)]
  rw [foldIns_const_new key d2 l2 ([] ++ [(d1, l1)]) hl2 h2 ?_]
  · rfl
  · intro kg hkg
    rcases List.mem_singleton.mp (by simpa using hkg) with rfl
    exact hne

/-- processDir on a qualifying nonempty group reduces to the merge-or-append
step. -/
theorem processDir_eq (env : NamingEnv) (cfg : Config) (st : List Album)
    (d : String) (g : List MediaFile) (hlen : ¬ g.length < 3)
    (f0 : MediaFile) (t : List MediaFile) (hg : g = f0 :: t) :
    processDir env cfg st d g =
      match mergeAlbumIntoFirst (albumFor env cfg d g f0).Name d g st with
      | some st' => st'
      | none => st ++ [albumFor env cfg d g f0] := by
  subst hg
  unfold processDir
  rw [if_neg hlen]

/-- organizeMusicFiles of a music-free input is empty. -/
theorem organizeMusic_nil (files : List MediaFile) (cfg : Config)
    (h : ∀ f ∈ files, f.MType ≠ .music) :
    organizeMusicFiles files cfg = [] := by
  unfold organizeMusicFiles
  have hf : files.filter (fun mf => mf.MType == .music) = [] := by
    rw [List.filter_eq_nil_iff]
    intro f hfm
    simp [h f hfm]
  rw [hf]
  rfl

/-- The new-files filter keeps every file of an all-new list. -/
theorem newFilesOf_all_new (dest : String) (fs : List MediaFile)
    (h : ∀ f ∈ fs, f.IsNew = true) : newFilesOf dest fs = fs := by
  unfold newFilesOf
  apply List.filter_eq_self.mpr
  intro f hf
  simp [h f hf]

/-- A single album whose files are all new passes the filter unchanged. -/
theorem filterAlbums_singleton_all_new (A : Album)
    (h : ∀ f ∈ A.Files, f.IsNew = true) (hne : A.Files ≠ []) :
    filterAlbumsWithNewFiles [A] = [A] := by
  have hnf : newFilesOf A.Destination A.Files = A.Files :=
    newFilesOf_all_new _ _ h
  show (if (newFilesOf A.Destination A.Files).isEmpty
      then filterAlbumsWithNewFiles []
      else { A with Files := newFilesOf A.Destination A.Files } ::
        filterAlbumsWithNewFiles []) = [A]
  rw [hnf]
  rw [if_neg ?_]
  · rfl
  · cases hc : A.Files with
    | nil => exact absurd hc hne
    | cons x xs => simp [List.isEmpty]

/-- C9 (amended): when two different source directories each contribute at
least 3 non-audio records, every contributing record is new, and the two
directories' computed album names coincide, OrganizeIntoAlbums returns
exactly one AlbumPlan for that name, whose file set is the union of both
directories' files and whose source-directory list contains both
directories.  (Without the all-new premise the final new-files filter can
drop settled records from the merged album's file set, so the plan's files
need not be the full union.) -/
theorem C9_album_merge (env : NamingEnv) (cfg : Config) (d1 d2 : String)
    (l1 l2 : List MediaFile)
    (h1 : ∀ f ∈ l1, f.MType ≠ .music ∧ goDir f.Path = d1 ∧ f.IsNew = true)
    (h2 : ∀ f ∈ l2, f.MType ≠ .music ∧ goDir f.Path = d2 ∧ f.IsNew = true)
    (hne : d1 ≠ d2) (hl1 : 3 ≤ l1.length) (hl2 : 3 ≤ l2.length)
    (hname : albumNameOf env d2 l2 (yearMonthOf l2) =
      albumNameOf env d1 l1 (yearMonthOf l1)) :
    ∃ A, OrganizeIntoAlbums env cfg (l1 ++ l2) = [A]
      ∧ A.Name = albumNameOf env d1 l1 (yearMonthOf l1)
      ∧ A.Files = l1 ++ l2
      ∧ A.SourceDirs = [d1, d2] := by
  have hl1ne : l1 ≠ [] := by
    intro he
    rw [he] at hl1
    simp at hl1
  have hl2ne : l2 ≠ [] := by
    intro he
    rw [he] at hl2
    simp at hl2
  obtain ⟨f1, t1, he1⟩ : ∃ f t, l1 = f :: t := by
    cases l1 with
    | nil => exact absurd rfl hl1ne
    | cons f t => exact ⟨f, t, rfl⟩
  obtain ⟨f2, t2, he2⟩ : ∃ f t, l2 = f :: t := by
    cases l2 with
    | nil => exact absurd rfl hl2ne
    | cons f t => exact ⟨f, t, rfl⟩
  have hlen1 : ¬ l1.length < 3 := by omega
  have hlen2 : ¬ l2.length < 3 := by omega
  have hfilter : (l1 ++ l2).filter (fun mf => !(mf.MType == .music)) =
      l1 ++ l2 := by
    apply List.filter_eq_self.mpr
    intro f hf
    rcases List.mem_append.mp hf with h | h
    · simp [(h1 f h).1]
    · simp [(h2 f h).1]
  have hgroup : groupByKey (fun mf => goDir mf.Path)
      ((l1 ++ l2).filter (fun mf => !(mf.MType == .music))) =
      [(d1, l1), (d2, l2)] := by
    rw [hfilter]
    exact groupByKey_two_dirs _ d1 d2 l1 l2 (fun f hf => (h1 f hf).2.1)
      (fun f hf => (h2 f hf).2.1) hne hl1ne hl2ne
  have hstep1 : processDir env cfg [] d1 l1 =
      [albumFor env cfg d1 l1 f1] := by
    rw [processDir_eq env cfg [] d1 l1 hlen1 f1 t1 he1]
    rfl
  have hcond : (albumFor env cfg d1 l1 f1).Name =
      (albumFor env cfg d2 l2 f2).Name := hname.symm
  have hmerge : mergeAlbumIntoFirst (albumFor env cfg d2 l2 f2).Name d2 l2
      [albumFor env cfg d1 l1 f1] =
      some [mergedAlbum d2 l2 (albumFor env cfg d1 l1 f1)] := by
    rw [mergeAlbumIntoFirst, if_pos hcond]
    rfl
  have hstep2 : processDir env cfg [albumFor env cfg d1 l1 f1] d2 l2 =
      [mergedAlbum d2 l2 (albumFor env cfg d1 l1 f1)] := by
    rw [processDir_eq env cfg _ d2 l2 hlen2 f2 t2 he2]
    rw [hmerge]
  have hmusic0 : organizeMusicFiles (l1 ++ l2) cfg = [] := by
    apply organizeMusic_nil
    intro f hf
    rcases List.mem_append.mp hf with h | h
    · exact (h1 f h).1
    · exact (h2 f h).1
  have hFiles : (mergedAlbum d2 l2 (albumFor env cfg d1 l1 f1)).Files =
      l1 ++ l2 := rfl
  have hnewAll : ∀ f ∈ (mergedAlbum d2 l2 (albumFor env cfg d1 l1 f1)).Files,
      f.IsNew = true := by
    intro f hf
    rw [hFiles] at hf
    rcases List.mem_append.mp hf with h | h
    · exact (h1 f h).2.2
    · exact (h2 f h).2.2
  refine ⟨mergedAlbum d2 l2 (albumFor env cfg d1 l1 f1), ?_, rfl, hFiles, rfl⟩
  simp only [OrganizeIntoAlbums]
  rw [hgroup]
  simp only [List.foldl_cons, List.foldl_nil]
  rw [hstep1, hstep2, hmusic0, List.append_nil]
  exact filterAlbums_singleton_all_new _ hnewAll
    (by rw [hFiles]; exact (by simp [he1] : l1 ++ l2 ≠ []))

/-- Three new photos in the second directory /d2 of the C9 examples. -/
def c9New (n : String) : MediaFile :=
  { mkScannedFile ("/d2/" ++ n) 10 .photo with IsNew := true }

/-- C9 counterexample: two different source directories whose computed album
name coincides ("X") produce one AlbumPlan listing both directories, but its
file set is NOT the union of both directories' files: the first directory's
settled records are dropped by the final new-files filter. -/
theorem C9_counterexample :
    OrganizeIntoAlbums cexEnv cexCfg
        [cexSettled "a.jpg", cexSettled "b.jpg", cexSettled "c.jpg",
          c9New "a.jpg", c9New "b.jpg", c9New "c.jpg"] =
      [{ Name := "X", Destination := "/lib/Photos/Unknown/X",
         Files := [c9New "a.jpg", c9New "b.jpg", c9New "c.jpg"],
         SourceDirs := ["/lib/Photos/Unknown/X", "/d2"], Date := none,
         MType := .photo }]
    ∧ goDir (cexSettled "a.jpg").Path = "/lib/Photos/Unknown/X"
    ∧ goDir (c9New "a.jpg").Path = "/d2"
    ∧ cexSettled "a.jpg" ∉
        [c9New "a.jpg", c9New "b.jpg", c9New "c.jpg"] :=
  ⟨by decide, by decide, by decide, by decide⟩

/-- First directory of the C9 witness: three new photos in /p/Trip. -/
def mrgA (n : String) : MediaFile :=
  { mkScannedFile ("/p/Trip/" ++ n) 10 .photo with IsNew := true }

/-- Second directory of the C9 witness: three new photos in /q/Trip, whose
fallback album name collides with /p/Trip's. -/
def mrgB (n : String) : MediaFile :=
  { mkScannedFile ("/q/Trip/" ++ n) 10 .photo with IsNew := true }

/-- Witness for C9_album_merge: two all-new directories with colliding
fallback names merge into one album holding the union. -/
theorem C9_album_merge_witness :
    ∃ A, OrganizeIntoAlbums thrEnv cexCfg
        ([mrgA "a.jpg", mrgA "b.jpg", mrgA "c.jpg"] ++
          [mrgB "a.jpg", mrgB "b.jpg", mrgB "c.jpg"]) = [A]
      ∧ A.Name = albumNameOf thrEnv "/p/Trip"
          [mrgA "a.jpg", mrgA "b.jpg", mrgA "c.jpg"]
          (yearMonthOf [mrgA "a.jpg", mrgA "b.jpg", mrgA "c.jpg"])
      ∧ A.Files = [mrgA "a.jpg", mrgA "b.jpg", mrgA "c.jpg"] ++
          [mrgB "a.jpg", mrgB "b.jpg", mrgB "c.jpg"]
      ∧ A.SourceDirs = ["/p/Trip", "/q/Trip"] :=
  C9_album_merge thrEnv cexCfg "/p/Trip" "/q/Trip"
    [mrgA "a.jpg", mrgA "b.jpg", mrgA "c.jpg"]
    [mrgB "a.jpg", mrgB "b.jpg", mrgB "c.jpg"]
    (by decide) (by decide) (by decide) (by decide) (by decide) (by decide)
